import Mathlib

/-!
Verification of the placeholder-substitution and table-insertion engine of
the term-sheet generator (`app.py`).

The embedding models:
* paragraph text as `List Char`, Python's `in` operator as `pyIn`, and
  Python's `str.replace` (leftmost, non-overlapping, all occurrences) as
  `pyReplace`;
* the document tree (body blocks, tables of cells, per-section headers and
  footers) and the three substitution walkers
  (`replace_text_in_paragraphs_full`, `replace_text_in_tables_full`,
  `replace_in_headers_and_footers`);
* the table builder `insert_table_after_paragraph` (shape, style fallback,
  cell fill via `str`) with `Option` for the `IndexError` paths;
* `find_paragraph_with_placeholder` and the "Generate Term Sheet" handler's
  clear-marker / splice / fallback-append logic.
-/

/-- Paragraph / marker text, modelled as a list of characters. -/
abbrev Txt := List Char

/-- Convenience conversion from a string literal. -/
def txt (s : String) : Txt := s.toList

/-- Python's `sub in s` substring test: true iff some suffix of `s` has
`sub` as a prefix (and `"" in s` is always true). -/
def pyIn (m : Txt) : Txt → Bool
  | [] => m.isPrefixOf []
  | c :: rest => m.isPrefixOf (c :: rest) || pyIn m rest

/-- Fuel-driven core of Python's `str.replace` for a nonempty pattern:
scan left to right; at a match emit the replacement and continue after the
matched text (non-overlapping); otherwise keep the character. The fuel is
always called with at least `s.length`, which suffices. -/
def pyReplaceGo (m v : Txt) : Nat → Txt → Txt
  | _, [] => []
  | 0, s => s
  | fuel + 1, c :: rest =>
    if m.isPrefixOf (c :: rest) then
      v ++ pyReplaceGo m v fuel (rest.drop (m.length - 1))
    else
      c :: pyReplaceGo m v fuel rest

/-- Python's `s.replace(m, v)` (all occurrences). For the empty pattern,
Python intersperses `v` around every character (`"ab".replace("", "X") =
"XaXbX"`). -/
def pyReplace (m v s : Txt) : Txt :=
  if m.isEmpty then v ++ s.flatMap (fun c => c :: v)
  else pyReplaceGo m v s.length s

/-- A paragraph: an ordered list of runs, each carrying a text fragment.
`para.text` is the concatenation of the run texts. -/
structure Paragraph where
  runs : List Txt
deriving DecidableEq

/-- `para.text`. -/
def paraText (p : Paragraph) : Txt := p.runs.flatten

/-- A freshly constructed scenario table: rows of rendered cell texts plus
the optional applied style (`insert_table_after_paragraph`). -/
structure Grid where
  rows : List (List String)
  style : Option String
deriving DecidableEq

/-- A block-level node: a paragraph, a pre-existing table (rows of cells,
each cell holding its own block sequence), or an inserted scenario table. -/
inductive Block where
  | bp (p : Paragraph)
  | bt (rows : List (List (List Block)))
  | bg (g : Grid)

/-- One document section: a header and a footer, each a block sequence. -/
structure Sect where
  header : List Block
  footer : List Block

/-- A document: the body's block sequence plus the sections. -/
structure Doc where
  body : List Block
  sections : List Sect

/-- `doc.paragraphs` / `header.paragraphs` / `cell.paragraphs`: the
paragraphs directly in a block sequence. -/
def blockParas (bs : List Block) : List Paragraph :=
  bs.filterMap fun b => match b with
    | .bp p => some p
    | _ => none

/-- The cell paragraphs of one table: every row, every cell, in order. -/
def tableCellParas (rows : List (List (List Block))) : List Paragraph :=
  rows.flatMap fun row => row.flatMap fun cell => blockParas cell

/-- All cell paragraphs of the tables directly in a block sequence
(`doc.tables` / `header.tables` / `footer.tables`). -/
def tablesCellParas (bs : List Block) : List Paragraph :=
  bs.flatMap fun b => match b with
    | .bt rows => tableCellParas rows
    | _ => []

/-- The per-paragraph replacement step shared by all walkers in `app.py`:
if the placeholder occurs in the paragraph's text, recompute the fully
replaced text, clear the paragraph and re-add the text as a single run;
otherwise leave the paragraph untouched. -/
def replPara (m v : Txt) (p : Paragraph) : Paragraph :=
  if pyIn m (paraText p) then ⟨[pyReplace m v (paraText p)]⟩ else p

/-- `replPara` lifted to a block (non-paragraph blocks untouched). -/
def replBlockPara (m v : Txt) : Block → Block
  | .bp p => .bp (replPara m v p)
  | b => b

/-- `replace_text_in_paragraphs_full` on the body, and likewise
`replace_text_in_cell_paragraphs_full` on a cell and the header/footer
paragraph loops: replace in each paragraph directly in the sequence. -/
def replParagraphsFull (m v : Txt) (bs : List Block) : List Block :=
  bs.map (replBlockPara m v)

/-- `replace_text_in_tables_full` (and the header/footer table loops):
replace in the cell paragraphs of every table directly in the sequence. -/
def replTablesFull (m v : Txt) (bs : List Block) : List Block :=
  bs.map fun b => match b with
    | .bt rows =>
        .bt (rows.map fun row => row.map fun cell => replParagraphsFull m v cell)
    | b => b

/-- `replace_in_headers_and_footers` restricted to one header or footer:
its paragraphs, then its tables' cell paragraphs. -/
def replHFPart (m v : Txt) (bs : List Block) : List Block :=
  replTablesFull m v (replParagraphsFull m v bs)

/-- One full substitution pass for a (marker, value) pair, as performed per
placeholder by the generate handler: `replace_text_in_paragraphs_full`,
then `replace_text_in_tables_full`, then `replace_in_headers_and_footers`. -/
def substPass (m v : Txt) (d : Doc) : Doc :=
  ⟨replTablesFull m v (replParagraphsFull m v d.body),
   d.sections.map fun s => ⟨replHFPart m v s.header, replHFPart m v s.footer⟩⟩

/-- Every paragraph the substitution pass scans, in order: body paragraphs,
body-table cell paragraphs, then per section the header paragraphs,
header-table cell paragraphs, footer paragraphs, footer-table cell
paragraphs. -/
def scanParas (d : Doc) : List Paragraph :=
  blockParas d.body ++ tablesCellParas d.body ++
    d.sections.flatMap fun s =>
      (blockParas s.header ++ tablesCellParas s.header) ++
      (blockParas s.footer ++ tablesCellParas s.footer)

/-- A primitive cell value: an int, a float (represented by the digits of
its shortest decimal form, `mant × 10⁻ᵉ`), or a string. -/
inductive Val where
  | vInt (n : Int)
  | vFloat (mant : Int) (e : Nat)
  | vStr (s : String)
deriving DecidableEq

/-- CPython `str` of a float whose shortest decimal representation is
`mant × 10⁻ᵉ`: an integral float prints with a trailing `.0`
(`str(84.0) = "84.0"`); otherwise the shortest decimal digits print
(`str(84.5) = "84.5"`). -/
def floatStr (mant : Int) (e : Nat) : String :=
  if e = 0 then toString mant ++ ".0"
  else
    let a := mant.natAbs
    let frac := toString (a % 10 ^ e)
    (if mant < 0 then "-" else "") ++ toString (a / 10 ^ e) ++ "." ++
      String.mk (List.replicate (e - frac.length) '0') ++ frac

/-- Python `str(val)`: the cell-rendering rule actually used by
`insert_table_after_paragraph` (`str(name)` / `str(val)`). -/
def pyStr : Val → String
  | .vInt n => toString n
  | .vFloat mant e => floatStr mant e
  | .vStr s => s

/-- Modelled from the spec's words (not from the source), for comparison
with `pyStr`: integral floats render without a decimal point, other floats
with exactly 4 fractional digits (for `e ≤ 4`), non-numeric values via
their natural string form. -/
def specCellRender : Val → String
  | .vInt n => toString n
  | .vFloat mant e =>
      if e = 0 then toString mant
      else
        let a := mant.natAbs
        let scaled := a % 10 ^ e * 10 ^ (4 - e)
        (if mant < 0 then "-" else "") ++ toString (a / 10 ^ e) ++ "." ++
          String.mk (List.replicate (4 - (toString scaled).length) '0') ++
            toString scaled
  | .vStr s => s

/-- `doc.add_table(rows=r, cols=c)`: a grid of empty cell texts. -/
def emptyRows (r c : Nat) : List (List String) :=
  List.replicate r (List.replicate c "")

/-- The fill loop `for c, val in enumerate(vals): cells[c].text = str(val)`:
assign `str` of each value to successive cells; an out-of-range index is a
Python `IndexError`, modelled as `none`. -/
def fillFrom (cells : List String) (c : Nat) : List Val → Option (List String)
  | [] => some cells
  | v :: vs =>
    if c < cells.length then fillFrom (cells.set c (pyStr v)) (c + 1) vs
    else none

/-- Fill row `i` of the grid from one row of values. -/
def setRow (g : List (List String)) (i : Nat) (vals : List Val) :
    Option (List (List String)) :=
  (g[i]?).bind fun row => (fillFrom row 0 vals).map fun row' => g.set i row'

/-- Fill successive grid rows from the data rows. -/
def fillRows (g : List (List String)) (start : Nat) :
    List (List Val) → Option (List (List String))
  | [] => some g
  | r :: rs => (setRow g start r).bind fun g' => fillRows g' (start + 1) rs

/-- Column count chosen by `insert_table_after_paragraph`: width of the
first data row, else the header width, else 1. -/
def ncolsOf (data : List (List Val)) (colNames : List Val) : Nat :=
  match data with
  | [] => if colNames.isEmpty then 1 else colNames.length
  | r :: _ => r.length

/-- Row count chosen by `insert_table_after_paragraph`. -/
def nrowsOf (data : List (List Val)) (colNames : List Val) : Nat :=
  data.length + (if colNames.isEmpty then 0 else 1)

/-- The construction part of `insert_table_after_paragraph` (`app.py`
lines 74-91): row/column count, the swallowed style application (a style
missing from the document's catalog yields `style := none` instead of an
error), header fill, then data fill. `none` models the `IndexError`
raised when the header or a data row is wider than the grid. -/
def mkTable (data : List (List Val)) (colNames : List Val)
    (catalog : List String) (pref : String) : Option Grid :=
  ((if colNames.isEmpty then
      some (emptyRows (nrowsOf data colNames) (ncolsOf data colNames))
    else
      setRow (emptyRows (nrowsOf data colNames) (ncolsOf data colNames))
        0 colNames).bind
    fun g1 => fillRows g1 (if colNames.isEmpty then 0 else 1) data).map
      fun rs => ⟨rs, if pref ∈ catalog then some pref else none⟩

/-- How one row of values renders into a grid row of `n` cells: rendered
values in order, remaining cells left unpopulated (empty text). -/
def rowRender (n : Nat) (r : List Val) : List String :=
  r.map pyStr ++ List.replicate (n - r.length) ""

/-- Index-free reformulation of the fill loop, used in proofs. -/
def overlay : List String → List Val → Option (List String)
  | cells, [] => some cells
  | [], _ :: _ => none
  | _ :: cells, v :: vs => (overlay cells vs).map fun r => pyStr v :: r

/-- Where `find_paragraph_with_placeholder` found the marker paragraph: a
body index, a body-table cell path (body block, row, cell, paragraph), or
a section's header/footer paragraph. -/
inductive Loc where
  | body (i : Nat)
  | cell (bi ri ci pi : Nat)
  | hdr (si i : Nat)
  | ftr (si i : Nat)
deriving DecidableEq

/-- Discriminator used to state counterexamples: paragraph 0, pre-existing
table 1, inserted table 2. -/
def blockKind : Block → Nat
  | .bp _ => 0
  | .bt _ => 1
  | .bg _ => 2

/-- Is this block a paragraph containing the marker? -/
def markerBlockP (m : Txt) : Block → Bool
  | .bp p => pyIn m (paraText p)
  | _ => false

/-- First index of a paragraph block containing the marker. -/
def findParaIdx (m : Txt) : List Block → Option Nat
  | [] => none
  | b :: bs =>
    if markerBlockP m b then some 0 else (findParaIdx m bs).map (· + 1)

/-- First (cell, paragraph) holding the marker within one table row. -/
def findInRow (m : Txt) : List (List Block) → Option (Nat × Nat)
  | [] => none
  | cell :: cells =>
    match findParaIdx m cell with
    | some j => some (0, j)
    | none => (findInRow m cells).map fun x => (x.1 + 1, x.2)

/-- First (row, cell, paragraph) holding the marker within one table. -/
def findInRows (m : Txt) : List (List (List Block)) → Option (Nat × Nat × Nat)
  | [] => none
  | row :: rows =>
    match findInRow m row with
    | some (ci, j) => some (0, ci, j)
    | none => (findInRows m rows).map fun x => (x.1 + 1, x.2)

/-- First table-cell paragraph with the marker among the body's tables
(`for table in doc.tables: for row ...: for cell ...: for para ...`); the
first index is the body block index of the table. -/
def findInTables (m : Txt) : List Block → Option (Nat × Nat × Nat × Nat)
  | [] => none
  | .bt rows :: bs =>
    match findInRows m rows with
    | some (ri, ci, j) => some (0, ri, ci, j)
    | none => (findInTables m bs).map fun x => (x.1 + 1, x.2)
  | _ :: bs => (findInTables m bs).map fun x => (x.1 + 1, x.2)

/-- Shift a header/footer location to the next section. -/
def bumpSec : Loc → Loc
  | .hdr si i => .hdr (si + 1) i
  | .ftr si i => .ftr (si + 1) i
  | l => l

/-- Search the sections: per section, header paragraphs then footer
paragraphs. Header/footer table cells are never searched. -/
def findInSections (m : Txt) : List Sect → Option Loc
  | [] => none
  | s :: ss =>
    match findParaIdx m s.header with
    | some i => some (.hdr 0 i)
    | none =>
      match findParaIdx m s.footer with
      | some i => some (.ftr 0 i)
      | none => (findInSections m ss).map bumpSec

/-- `find_paragraph_with_placeholder` (`app.py` lines 55-72): body
paragraphs, then body-table cell paragraphs, then per section header and
footer paragraphs; `none` when the marker is in none of these. -/
def find_paragraph_with_placeholder (d : Doc) (m : Txt) : Option Loc :=
  match findParaIdx m d.body with
  | some i => some (.body i)
  | none =>
    match findInTables m d.body with
    | some (bi, ri, ci, j) => some (.cell bi ri ci j)
    | none => findInSections m d.sections

/-- Replace the element at index `i` in place (no-op when out of range). -/
def modifyAt {α : Type} (f : α → α) : List α → Nat → List α
  | [], _ => []
  | a :: l, 0 => f a :: l
  | a :: l, n + 1 => a :: modifyAt f l n

/-- Insert `x` immediately after index `i` (lxml `addnext`). -/
def insertAfterIdx {α : Type} (x : α) : List α → Nat → List α
  | [], _ => []
  | a :: l, 0 => a :: x :: l
  | a :: l, n + 1 => a :: insertAfterIdx x l n

/-- The sibling block sequence a location points into. -/
def locContainer (d : Doc) : Loc → List Block
  | .body _ => d.body
  | .cell bi ri ci _ =>
    ((d.body[bi]?).bind fun b =>
      match b with
      | .bt rows => (rows[ri]?).bind fun row => row[ci]?
      | _ => none).getD []
  | .hdr si _ => ((d.sections[si]?).map Sect.header).getD []
  | .ftr si _ => ((d.sections[si]?).map Sect.footer).getD []

/-- The paragraph index of a location within its container. -/
def locIdx : Loc → Nat
  | .body i => i
  | .cell _ _ _ j => j
  | .hdr _ i => i
  | .ftr _ i => i

/-- The path indices of the location resolve inside the document. -/
def locPathOK (d : Doc) : Loc → Prop
  | .body _ => True
  | .cell bi ri ci _ =>
    ∃ rows row cell, d.body[bi]? = some (.bt rows) ∧ rows[ri]? = some row ∧
      row[ci]? = some cell
  | .hdr si _ => ∃ s, d.sections[si]? = some s
  | .ftr si _ => ∃ s, d.sections[si]? = some s

/-- Apply `f` to the container a location points into. -/
def updContainer (f : List Block → List Block) (d : Doc) : Loc → Doc
  | .body _ => ⟨f d.body, d.sections⟩
  | .cell bi ri ci _ =>
    ⟨modifyAt (fun b => match b with
        | .bt rows => .bt (modifyAt (fun row => modifyAt f row ci) rows ri)
        | b => b) d.body bi,
      d.sections⟩
  | .hdr si _ =>
    ⟨d.body, modifyAt (fun s => ⟨f s.header, s.footer⟩) d.sections si⟩
  | .ftr si _ =>
    ⟨d.body, modifyAt (fun s => ⟨s.header, f s.footer⟩) d.sections si⟩

/-- The handler's marker-clearing step (lines 249-252): replace the marker
with the empty string in the found paragraph, re-rendered as one run. -/
def clearBlock (m : Txt) : Block → Block
  | .bp p => .bp (replPara m [] p)
  | b => b

/-- Clear the marker in the paragraph at the location. -/
def clearAt (d : Doc) (loc : Loc) (m : Txt) : Doc :=
  updContainer (fun l => modifyAt (clearBlock m) l (locIdx loc)) d loc

/-- `paragraph._p.addnext(table._tbl)`: splice the new table right after
the located paragraph. -/
def insertGridAt (d : Doc) (loc : Loc) (g : Grid) : Doc :=
  updContainer (fun l => insertAfterIdx (.bg g) l (locIdx loc)) d loc

/-- Is this block a paragraph? -/
def isPara : Block → Bool
  | .bp _ => true
  | _ => false

/-- Index of the last paragraph block (`doc.paragraphs[-1]`). -/
def lastParaIdx : List Block → Option Nat
  | [] => none
  | b :: bs =>
    match lastParaIdx bs with
    | some i => some (i + 1)
    | none => if isPara b then some 0 else none

/-- `insert_table_after_paragraph` (`app.py` lines 74-95): build the table
(`mkTable`, including the swallowed style application) and splice it
immediately after the given paragraph. -/
def insert_table_after_paragraph (d : Doc) (loc : Loc)
    (data : List (List Val)) (colNames : List Val) (catalog : List String)
    (pref : String) : Option Doc :=
  (mkTable data colNames catalog pref).map fun g => insertGridAt d loc g

/-- The "Generate Term Sheet" handler's table step (`app.py` lines
244-256): locate the marker; if found, clear it from the paragraph and
splice the table after that paragraph; otherwise splice after the last
body paragraph (`doc.paragraphs[-1]`, `none` when there is none) and
signal a non-fatal warning (the boolean). -/
def generateTermSheet (d : Doc) (m : Txt) (data : List (List Val))
    (colNames : List Val) (catalog : List String) (pref : String) :
    Option (Doc × Bool) :=
  match find_paragraph_with_placeholder d m with
  | some loc =>
    (insert_table_after_paragraph (clearAt d loc m) loc data colNames
        catalog pref).map fun d' => (d', false)
  | none =>
    match lastParaIdx d.body with
    | none => none
    | some j =>
      (insert_table_after_paragraph d (.body j) data colNames catalog
          pref).map fun d' => (d', true)

/-- The domain `find_paragraph_with_placeholder` searches, in its order:
body paragraphs, body-table cell paragraphs, then per section its header
paragraphs and footer paragraphs. Header/footer table-cell paragraphs are
absent (the substitution pass scans them, the search does not). -/
def findDomainParas (d : Doc) : List Paragraph :=
  blockParas d.body ++ tablesCellParas d.body ++
    d.sections.flatMap fun s => blockParas s.header ++ blockParas s.footer

/-- The paragraph a found location denotes. -/
def paraAtLoc (d : Doc) (loc : Loc) : Paragraph :=
  match (locContainer d loc)[locIdx loc]? with
  | some (.bp p) => p
  | _ => ⟨[]⟩

@[simp] theorem blockParas_cons_bp (p : Paragraph) (bs : List Block) :
    blockParas (.bp p :: bs) = p :: blockParas bs := by
  simp [blockParas, List.filterMap_cons]

@[simp] theorem blockParas_cons_bt (rows : List (List (List Block)))
    (bs : List Block) : blockParas (.bt rows :: bs) = blockParas bs := by
  simp [blockParas, List.filterMap_cons]

@[simp] theorem blockParas_cons_bg (g : Grid) (bs : List Block) :
    blockParas (.bg g :: bs) = blockParas bs := by
  simp [blockParas, List.filterMap_cons]

@[simp] theorem tablesCellParas_cons_bp (p : Paragraph) (bs : List Block) :
    tablesCellParas (.bp p :: bs) = tablesCellParas bs := by
  simp [tablesCellParas]

@[simp] theorem tablesCellParas_cons_bt (rows : List (List (List Block)))
    (bs : List Block) :
    tablesCellParas (.bt rows :: bs) = tableCellParas rows ++ tablesCellParas bs := by
  simp [tablesCellParas]

@[simp] theorem tablesCellParas_cons_bg (g : Grid) (bs : List Block) :
    tablesCellParas (.bg g :: bs) = tablesCellParas bs := by
  simp [tablesCellParas]

theorem pyIn_iff (m s : Txt) : pyIn m s = true ↔ m <:+: s := by
  induction s with
  | nil => simp [pyIn, List.isPrefixOf_iff_prefix]
  | cons c rest ih =>
    simp [pyIn, List.isPrefixOf_iff_prefix, ih, List.infix_cons_iff]

theorem suffix_append_cases {t a b : Txt} (h : t <:+ a ++ b) :
    t <:+ b ∨ ∃ a', a' ≠ [] ∧ a' <:+ a ∧ t = a' ++ b := by
  induction a with
  | nil => exact Or.inl (by simpa using h)
  | cons x a ih =>
    rw [List.cons_append, List.suffix_cons_iff] at h
    rcases h with h | h
    · exact Or.inr ⟨x :: a, by simp, List.suffix_refl _, by simpa using h⟩
    · rcases ih h with h' | ⟨a', hne, hsuf, rfl⟩
      · exact Or.inl h'
      · exact Or.inr ⟨a', hne, hsuf.trans (List.suffix_cons x a), rfl⟩

/-- If no character of `w` occurs in the (nonempty) replacement `v`, then a
prefix of the replaced text is a prefix of the original text. -/
theorem prefix_of_prefix_pyReplaceGo {m v : Txt} (hv : v ≠ []) :
    ∀ fuel s w, s.length ≤ fuel → (∀ c ∈ w, c ∉ v) →
      w <+: pyReplaceGo m v fuel s → w <+: s := by
  intro fuel
  induction fuel with
  | zero =>
    intro s w hlen _ hw
    have hs : s = [] := List.length_eq_zero.mp (Nat.le_zero.mp hlen)
    subst hs
    simpa [pyReplaceGo] using hw
  | succ fuel ih =>
    intro s w hlen hdisj hw
    cases s with
    | nil => simpa [pyReplaceGo] using hw
    | cons c rest =>
      by_cases hp : m.isPrefixOf (c :: rest)
      · rw [pyReplaceGo, if_pos hp] at hw
        cases w with
        | nil => exact List.nil_prefix
        | cons a w' =>
          exfalso
          cases v with
          | nil => exact hv rfl
          | cons b v' =>
            rcases hw with ⟨t, ht⟩
            have hab : a = b := by
              have := congrArg List.head? ht
              simpa using this
            exact hdisj a (List.mem_cons_self a w')
              (hab ▸ List.mem_cons_self b v')
      · rw [pyReplaceGo, if_neg hp] at hw
        cases w with
        | nil => exact List.nil_prefix
        | cons a w' =>
          rcases List.cons_prefix_cons.mp hw with ⟨rfl, hw'⟩
          have hlen' : rest.length ≤ fuel := by
            simpa using hlen
          have := ih rest w' hlen'
            (fun x hx => hdisj x (List.mem_cons_of_mem _ hx)) hw'
          exact List.cons_prefix_cons.mpr ⟨rfl, this⟩

/-- Key lemma: when the marker is nonempty, the replacement is nonempty and
shares no character with the marker, no suffix of the replaced text starts
with the marker. -/
theorem no_marker_suffix {m v : Txt} (hm : m ≠ []) (hv : v ≠ [])
    (hd : ∀ c ∈ m, c ∉ v) :
    ∀ fuel s, s.length ≤ fuel →
      ∀ t, t <:+ pyReplaceGo m v fuel s → ¬ m <+: t := by
  intro fuel
  induction fuel with
  | zero =>
    intro s hlen t ht hmt
    have hs : s = [] := List.length_eq_zero.mp (Nat.le_zero.mp hlen)
    subst hs
    simp only [pyReplaceGo] at ht
    have : t = [] := List.suffix_nil.mp ht
    subst this
    exact hm (List.prefix_nil.mp hmt)
  | succ fuel ih =>
    intro s hlen t ht hmt
    cases s with
    | nil =>
      simp only [pyReplaceGo] at ht
      have : t = [] := List.suffix_nil.mp ht
      subst this
      exact hm (List.prefix_nil.mp hmt)
    | cons c rest =>
      have hlen' : rest.length ≤ fuel := by
        simpa using hlen
      by_cases hp : m.isPrefixOf (c :: rest)
      · rw [pyReplaceGo, if_pos hp] at ht
        rcases suffix_append_cases ht with ht' | ⟨a', hne, hsuf, rfl⟩
        · have hdlen : (rest.drop (m.length - 1)).length ≤ fuel := by
            rw [List.length_drop]
            omega
          exact ih _ hdlen t ht' hmt
        · cases m with
          | nil => exact hm rfl
          | cons m0 m₁ =>
            cases a' with
            | nil => exact hne rfl
            | cons b a'' =>
              rcases hmt with ⟨u, hu⟩
              have hb : m0 = b := by
                have := congrArg List.head? hu
                simpa using this
              exact hd m0 (List.mem_cons_self m0 m₁)
                (hb ▸ hsuf.subset (List.mem_cons_self b a''))
      · rw [pyReplaceGo, if_neg hp] at ht
        rcases List.suffix_cons_iff.mp ht with rfl | ht'
        · cases m with
          | nil => exact hm rfl
          | cons m0 m₁ =>
            rcases List.cons_prefix_cons.mp hmt with ⟨rfl, hm₁⟩
            have hm₁rest : m₁ <+: rest :=
              prefix_of_prefix_pyReplaceGo hv fuel rest m₁ hlen'
                (fun x hx => hd x (List.mem_cons_of_mem _ hx)) hm₁
            exact hp (List.isPrefixOf_iff_prefix.mpr
              (List.cons_prefix_cons.mpr ⟨rfl, hm₁rest⟩))
        · exact ih rest hlen' t ht' hmt

/-- After one `str.replace` pass with a nonempty marker and a nonempty,
character-disjoint replacement, no occurrence of the marker remains. -/
theorem pyReplace_no_marker {m v : Txt} (hm : m ≠ []) (hv : v ≠ [])
    (hd : ∀ c ∈ m, c ∉ v) (s : Txt) :
    pyIn m (pyReplace m v s) = false := by
  have hne : m.isEmpty = false := by
    cases m with
    | nil => exact absurd rfl hm
    | cons a l => rfl
  rw [pyReplace, hne]
  simp only [Bool.false_eq_true, if_false]
  by_contra h
  rw [Bool.not_eq_false, pyIn_iff, List.infix_iff_prefix_suffix] at h
  rcases h with ⟨t, hpre, hsuf⟩
  exact no_marker_suffix hm hv hd s.length s (Nat.le_refl _) t hsuf hpre

theorem blockParas_replParagraphsFull (m v : Txt) (bs : List Block) :
    blockParas (replParagraphsFull m v bs)
      = (blockParas bs).map (replPara m v) := by
  induction bs with
  | nil => rfl
  | cons b bs ih =>
    cases b <;>
      simp_all [replParagraphsFull, replBlockPara, blockParas, List.filterMap_cons]

theorem blockParas_replTablesFull (m v : Txt) (bs : List Block) :
    blockParas (replTablesFull m v bs) = blockParas bs := by
  induction bs with
  | nil => rfl
  | cons b bs ih =>
    cases b <;>
      simp_all [replTablesFull, blockParas, List.filterMap_cons]

theorem tableCellParas_repl (m v : Txt) (rows : List (List (List Block))) :
    tableCellParas (rows.map fun row => row.map fun cell =>
        replParagraphsFull m v cell)
      = (tableCellParas rows).map (replPara m v) := by
  simp [tableCellParas, List.flatMap_map, List.map_flatMap,
    blockParas_replParagraphsFull, Function.comp]

theorem tablesCellParas_replParagraphsFull (m v : Txt) (bs : List Block) :
    tablesCellParas (replParagraphsFull m v bs) = tablesCellParas bs := by
  induction bs with
  | nil => rfl
  | cons b bs ih =>
    cases b <;>
      simp_all [replParagraphsFull, replBlockPara, tablesCellParas]

theorem tablesCellParas_replTablesFull (m v : Txt) (bs : List Block) :
    tablesCellParas (replTablesFull m v bs)
      = (tablesCellParas bs).map (replPara m v) := by
  induction bs with
  | nil => rfl
  | cons b bs ih =>
    cases b <;>
      simp_all [replTablesFull, tablesCellParas, tableCellParas_repl]

/-- The substitution pass rewrites exactly the scanned paragraphs, each via
`replPara`, preserving their number and order. -/
theorem scanParas_substPass (m v : Txt) (d : Doc) :
    scanParas (substPass m v d) = (scanParas d).map (replPara m v) := by
  simp [scanParas, substPass, replHFPart, blockParas_replParagraphsFull,
    blockParas_replTablesFull, tablesCellParas_replParagraphsFull,
    tablesCellParas_replTablesFull, List.flatMap_map, List.map_flatMap]

theorem mapIdOf {α : Type} {f : α → α} :
    ∀ l : List α, (∀ x ∈ l, f x = x) → l.map f = l := by
  intro l h
  induction l with
  | nil => rfl
  | cons a l ih => simp_all

theorem replParagraphsFull_id (m v : Txt) (bs : List Block)
    (h : ∀ p ∈ blockParas bs, pyIn m (paraText p) = false) :
    replParagraphsFull m v bs = bs := by
  induction bs with
  | nil => rfl
  | cons b bs ih =>
    cases b with
    | bp p =>
      have hp : pyIn m (paraText p) = false := h p (by simp)
      have hrest := ih fun q hq => h q (by simp [hq])
      simp [replParagraphsFull, replBlockPara, replPara, hp] at hrest ⊢
      exact hrest
    | bt rows =>
      have hrest := ih fun q hq => h q (by simp [hq])
      simp [replParagraphsFull, replBlockPara] at hrest ⊢
      exact hrest
    | bg g =>
      have hrest := ih fun q hq => h q (by simp [hq])
      simp [replParagraphsFull, replBlockPara] at hrest ⊢
      exact hrest

theorem replTablesFull_id (m v : Txt) (bs : List Block)
    (h : ∀ p ∈ tablesCellParas bs, pyIn m (paraText p) = false) :
    replTablesFull m v bs = bs := by
  induction bs with
  | nil => rfl
  | cons b bs ih =>
    cases b with
    | bp p =>
      have hrest := ih fun q hq => h q (by simp [hq])
      simp [replTablesFull] at hrest ⊢
      exact hrest
    | bt rows =>
      have hrows : (rows.map fun row => row.map fun cell =>
          replParagraphsFull m v cell) = rows := by
        apply mapIdOf
        intro row hrow
        apply mapIdOf
        intro cell hcell
        apply replParagraphsFull_id
        intro p hp
        apply h p
        simp [tableCellParas, List.mem_flatMap]
        exact Or.inl ⟨row, hrow, cell, hcell, hp⟩
      have hrest := ih fun q hq => h q (by simp [hq])
      simp [replTablesFull] at hrest ⊢
      exact ⟨hrows, hrest⟩
    | bg g =>
      have hrest := ih fun q hq => h q (by simp [hq])
      simp [replTablesFull] at hrest ⊢
      exact hrest

theorem substPass_id (m v : Txt) (d : Doc)
    (h : ∀ p ∈ scanParas d, pyIn m (paraText p) = false) :
    substPass m v d = d := by
  obtain ⟨body, sections⟩ := d
  have hbody : ∀ p ∈ blockParas body ++ tablesCellParas body,
      pyIn m (paraText p) = false := by
    intro p hp
    apply h p
    simp only [scanParas, List.mem_append]
    rcases List.mem_append.mp hp with h1 | h1
    · exact Or.inl (Or.inl h1)
    · exact Or.inl (Or.inr h1)
  have hb1 : replParagraphsFull m v body = body :=
    replParagraphsFull_id m v body fun p hp => hbody p (by simp [hp])
  have hb2 : replTablesFull m v body = body :=
    replTablesFull_id m v body fun p hp => hbody p (by simp [hp])
  have hsec : (sections.map fun s =>
      Sect.mk (replHFPart m v s.header) (replHFPart m v s.footer)) = sections := by
    apply mapIdOf
    intro s hs
    have hh : ∀ p ∈ blockParas s.header ++ tablesCellParas s.header ++
        (blockParas s.footer ++ tablesCellParas s.footer),
        pyIn m (paraText p) = false := by
      intro p hp
      apply h p
      simp only [scanParas, List.mem_append, List.mem_flatMap]
      refine Or.inr ⟨s, hs, ?_⟩
      simp only [List.mem_append] at hp ⊢
      tauto
    have h1 : replParagraphsFull m v s.header = s.header :=
      replParagraphsFull_id m v _ fun p hp => hh p (by simp [hp])
    have h2 : replTablesFull m v s.header = s.header :=
      replTablesFull_id m v _ fun p hp => hh p (by simp [hp])
    have h3 : replParagraphsFull m v s.footer = s.footer :=
      replParagraphsFull_id m v _ fun p hp => hh p (by simp [hp])
    have h4 : replTablesFull m v s.footer = s.footer :=
      replTablesFull_id m v _ fun p hp => hh p (by simp [hp])
    cases s
    simp_all [replHFPart]
  simp [substPass, hb1, hb2, hsec]

/-- C1 (amended): one substitution pass rewrites exactly the scanned
paragraphs (body, body-table cells, header/footer paragraphs and their
table cells), each paragraph that contained the marker now carrying the
Python-`replace`d text with surrounding text preserved; provided the
rendered value is nonempty and shares no character with the (nonempty)
marker, no occurrence of the marker remains in that text. -/
theorem c1_substitution_completeness (m v : Txt) (d : Doc)
    (hm : m ≠ []) (hv : v ≠ []) (hd : ∀ c ∈ m, c ∉ v) :
    scanParas (substPass m v d) = (scanParas d).map (replPara m v) ∧
    ∀ p ∈ scanParas d, pyIn m (paraText p) = true →
      paraText (replPara m v p) = pyReplace m v (paraText p) ∧
      pyIn m (paraText (replPara m v p)) = false := by
  refine ⟨scanParas_substPass m v d, ?_⟩
  intro p _ hin
  have hrepl : replPara m v p = ⟨[pyReplace m v (paraText p)]⟩ := by
    simp [replPara, hin]
  rw [hrepl]
  refine ⟨by simp [paraText], ?_⟩
  simpa [paraText] using pyReplace_no_marker hm hv hd (paraText p)

/-- C1 counterexample: with marker `"ab"` and value `"b"` (the rendered
value does not contain the marker), the paragraph `"aab"` is rewritten by
the substitution pass to `"ab"`, in which the marker still occurs — the
replacement seam creates a fresh occurrence. -/
theorem c1_counterexample :
    pyIn (txt "ab") (txt "b") = false ∧
    (scanParas (substPass (txt "ab") (txt "b")
        ⟨[.bp ⟨[txt "aab"]⟩], []⟩)).map paraText = [txt "ab"] ∧
    pyIn (txt "ab") (txt "ab") = true := by
  decide

/-- C1 witness: the amended theorem at the E2E-1 template paragraph. -/
theorem c1_witness :
    paraText (replPara (txt "\x7b\x7bClientName\x7d\x7d") (txt "XYZ")
        ⟨[txt "Client: \x7b\x7bClientName\x7d\x7d"]⟩)
      = pyReplace (txt "\x7b\x7bClientName\x7d\x7d") (txt "XYZ")
          (paraText ⟨[txt "Client: \x7b\x7bClientName\x7d\x7d"]⟩) ∧
    pyIn (txt "\x7b\x7bClientName\x7d\x7d")
      (paraText (replPara (txt "\x7b\x7bClientName\x7d\x7d") (txt "XYZ")
        ⟨[txt "Client: \x7b\x7bClientName\x7d\x7d"]⟩)) = false :=
  (c1_substitution_completeness (txt "\x7b\x7bClientName\x7d\x7d")
      (txt "XYZ") ⟨[.bp ⟨[txt "Client: \x7b\x7bClientName\x7d\x7d"]⟩], []⟩
      (by decide) (by decide) (by decide)).2
    ⟨[txt "Client: \x7b\x7bClientName\x7d\x7d"]⟩ (by decide) (by decide)

/-- C7: the substitution pass maps each scanned paragraph through
`replPara` (count and order preserved), and a paragraph whose concatenated
text does not contain the marker is left exactly as it was — same runs,
same texts, same order. -/
theorem c7_substitution_locality (m v : Txt) (d : Doc) :
    scanParas (substPass m v d) = (scanParas d).map (replPara m v) ∧
    ∀ p : Paragraph, pyIn m (paraText p) = false → replPara m v p = p := by
  refine ⟨scanParas_substPass m v d, ?_⟩
  intro p hp
  simp [replPara, hp]

/-- C7 witness: a marker-free paragraph is untouched. -/
theorem c7_witness :
    replPara (txt "\x7b\x7bSpot\x7d\x7d") (txt "78.00") ⟨[txt "Hello"]⟩
      = ⟨[txt "Hello"]⟩ :=
  (c7_substitution_locality (txt "\x7b\x7bSpot\x7d\x7d") (txt "78.00")
      ⟨[], []⟩).2 ⟨[txt "Hello"]⟩ (by decide)

/-- C8 (amended): a second substitution pass for the same (marker, value)
pair is a no-op, provided the rendered value is nonempty and shares no
character with the (nonempty) marker. -/
theorem c8_idempotence (m v : Txt) (d : Doc) (hm : m ≠ []) (hv : v ≠ [])
    (hd : ∀ c ∈ m, c ∉ v) :
    substPass m v (substPass m v d) = substPass m v d := by
  apply substPass_id
  intro p hp
  rw [scanParas_substPass] at hp
  rcases List.mem_map.mp hp with ⟨q, _, rfl⟩
  by_cases hin : pyIn m (paraText q) = true
  · have hrepl : replPara m v q = ⟨[pyReplace m v (paraText q)]⟩ := by
      simp [replPara, hin]
    rw [hrepl]
    simpa [paraText] using pyReplace_no_marker hm hv hd (paraText q)
  · have hf : pyIn m (paraText q) = false := by simpa using hin
    simp [replPara, hf]

/-- C8 counterexample: with marker `"ab"` and value `"b"` (the value does
not contain the marker), two passes differ from one pass on the paragraph
`"aab"` (`"aab" → "ab" → "b"`). -/
theorem c8_counterexample :
    pyIn (txt "ab") (txt "b") = false ∧
    (scanParas (substPass (txt "ab") (txt "b") (substPass (txt "ab")
        (txt "b") ⟨[.bp ⟨[txt "aab"]⟩], []⟩))).map paraText
      ≠ (scanParas (substPass (txt "ab") (txt "b")
          ⟨[.bp ⟨[txt "aab"]⟩], []⟩)).map paraText := by
  decide

/-- C8 witness: the amended idempotence at a concrete document. -/
theorem c8_witness :
    substPass (txt "\x7b\x7bSpot\x7d\x7d") (txt "78.00")
        (substPass (txt "\x7b\x7bSpot\x7d\x7d") (txt "78.00")
          ⟨[.bp ⟨[txt "Spot: \x7b\x7bSpot\x7d\x7d"]⟩], []⟩)
      = substPass (txt "\x7b\x7bSpot\x7d\x7d") (txt "78.00")
          ⟨[.bp ⟨[txt "Spot: \x7b\x7bSpot\x7d\x7d"]⟩], []⟩ :=
  c8_idempotence _ _ _ (by decide) (by decide) (by decide)

theorem fillFrom_cons (y : String) (cells : List String) (c : Nat)
    (vals : List Val) :
    fillFrom (y :: cells) (c + 1) vals
      = (fillFrom cells c vals).map fun r => y :: r := by
  induction vals generalizing cells c y with
  | nil => rfl
  | cons v vs ih =>
    by_cases hc : c < cells.length
    · have hc' : c + 1 < (y :: cells).length := by
        simpa using Nat.succ_lt_succ hc
      have hset : (y :: cells).set (c + 1) (pyStr v)
          = y :: cells.set c (pyStr v) := rfl
      simp only [fillFrom, if_pos hc, if_pos hc', hset, ih]
    · have hc' : ¬ c + 1 < (y :: cells).length := by
        simpa using hc
      simp only [fillFrom, if_neg hc, if_neg hc', Option.map_none']

theorem fillFrom_zero (cells : List String) (vals : List Val) :
    fillFrom cells 0 vals = overlay cells vals := by
  induction vals generalizing cells with
  | nil => cases cells <;> rfl
  | cons v vs ih =>
    cases cells with
    | nil => rfl
    | cons x cs =>
      have h0 : 0 < (x :: cs).length := Nat.succ_pos _
      have hset : (x :: cs).set 0 (pyStr v) = pyStr v :: cs := rfl
      simp only [fillFrom, if_pos h0, hset, overlay]
      rw [fillFrom_cons, ih]

theorem overlay_replicate (vals : List Val) (n : Nat) (h : vals.length ≤ n) :
    overlay (List.replicate n "") vals
      = some (rowRender n vals) := by
  induction vals generalizing n with
  | nil => simp [overlay, rowRender]
  | cons v vs ih =>
    cases n with
    | zero => simp at h
    | succ n =>
      rw [List.replicate_succ]
      simp only [overlay]
      rw [ih n (by simpa using h)]
      simp [rowRender, List.length_cons, Nat.succ_sub_succ]

theorem set_append_len {α : Type} (pre : List α) (x y : α) (rest : List α) :
    (pre ++ x :: rest).set pre.length y = pre ++ y :: rest := by
  induction pre with
  | nil => rfl
  | cons a l ih => simp [List.set, ih]

theorem fillRows_replicate (ncols : Nat) :
    ∀ (data : List (List Val)) (pre : List (List String)),
      (∀ r ∈ data, r.length ≤ ncols) →
      fillRows (pre ++ List.replicate data.length (List.replicate ncols ""))
          pre.length data
        = some (pre ++ data.map (rowRender ncols)) := by
  intro data
  induction data with
  | nil =>
    intro pre _
    simp [fillRows]
  | cons r rs ih =>
    intro pre hw
    rw [List.length_cons, List.replicate_succ]
    simp only [fillRows]
    have hget : (pre ++ List.replicate ncols "" ::
        List.replicate rs.length (List.replicate ncols ""))[pre.length]?
        = some (List.replicate ncols "") := by
      rw [List.getElem?_append_right (Nat.le_refl _)]
      simp
    have hrow : fillFrom (List.replicate ncols "") 0 r
        = some (rowRender ncols r) := by
      rw [fillFrom_zero]
      exact overlay_replicate r ncols (hw r (List.mem_cons_self r rs))
    simp only [setRow, hget, Option.some_bind, hrow, Option.map_some']
    rw [set_append_len]
    have hstep := ih (pre ++ [rowRender ncols r])
      (fun q hq => hw q (List.mem_cons_of_mem r hq))
    rw [List.append_assoc, List.singleton_append, List.length_append,
      List.length_singleton] at hstep
    rw [hstep]
    simp

theorem mkTable_spec (data : List (List Val)) (colNames : List Val)
    (catalog : List String) (pref : String)
    (h : ∀ r ∈ data, r.length ≤ ncolsOf data colNames)
    (hcn : colNames.length ≤ ncolsOf data colNames) :
    mkTable data colNames catalog pref = some
      ⟨(if colNames.isEmpty then []
          else [rowRender (ncolsOf data colNames) colNames])
         ++ data.map (rowRender (ncolsOf data colNames)),
       if pref ∈ catalog then some pref else none⟩ := by
  by_cases hempty : colNames.isEmpty
  · have h0 := fillRows_replicate (ncolsOf data colNames) data [] h
    simp only [List.nil_append, List.length_nil] at h0
    simp [mkTable, hempty, emptyRows, nrowsOf, h0]
  · have hnr : nrowsOf data colNames = data.length + 1 := by
      simp [nrowsOf, hempty]
    have hsplit : emptyRows (nrowsOf data colNames) (ncolsOf data colNames)
        = List.replicate (ncolsOf data colNames) "" ::
          List.replicate data.length
            (List.replicate (ncolsOf data colNames) "") := by
      rw [emptyRows, hnr, List.replicate_succ]
    have hhdr : setRow (emptyRows (nrowsOf data colNames)
        (ncolsOf data colNames)) 0 colNames
        = some (rowRender (ncolsOf data colNames) colNames ::
            List.replicate data.length
              (List.replicate (ncolsOf data colNames) "")) := by
      rw [hsplit, setRow]
      simp only [List.getElem?_cons_zero, Option.some_bind]
      rw [fillFrom_zero, overlay_replicate colNames _ hcn]
      rfl
    have hfill := fillRows_replicate (ncolsOf data colNames) data
      [rowRender (ncolsOf data colNames) colNames] h
    simp only [List.singleton_append, List.length_singleton] at hfill
    simp [mkTable, hempty, hhdr, hfill]

theorem rowRender_length {n : Nat} {r : List Val} (h : r.length ≤ n) :
    (rowRender n r).length = n := by
  simp [rowRender]
  omega

/-- C3 (amended): for `N` data rows of uniform width `W` and an optional
header that is no wider than `W` when data rows are present, the
constructed table has exactly `N + (1 if header else 0)` rows and `W`
columns (header width when `N = 0`, or 1 column with no data and no
header), header cells carry the header values in order, and an empty
data-row sequence with a header yields a valid header-only table. The
width hypothesis on the header is the amendment: a header wider than `W`
makes the fill raise `IndexError` instead of producing a table. -/
theorem c3_table_shape (data : List (List Val)) (colNames : List Val)
    (catalog : List String) (pref : String) (W : Nat)
    (hW : ∀ r ∈ data, r.length = W)
    (hcn : data ≠ [] → colNames.length ≤ W) :
    ∃ g, mkTable data colNames catalog pref = some g ∧
      g.rows.length = data.length + (if colNames.isEmpty then 0 else 1) ∧
      (∀ row ∈ g.rows, row.length = ncolsOf data colNames) ∧
      (¬ colNames.isEmpty →
        g.rows.head? = some (rowRender (ncolsOf data colNames) colNames)) ∧
      (data = [] → ¬ colNames.isEmpty → g.rows = [colNames.map pyStr]) := by
  have hcn' : colNames.length ≤ ncolsOf data colNames := by
    cases data with
    | nil =>
      by_cases he : colNames.isEmpty
      · have hnil : colNames = [] := List.isEmpty_iff.mp he
        simp [hnil, ncolsOf]
      · simp [ncolsOf, he]
    | cons r rs =>
      have hr : r.length = W := hW r (List.mem_cons_self r rs)
      simpa [ncolsOf, hr] using hcn (by simp)
  have hle : ∀ r ∈ data, r.length ≤ ncolsOf data colNames := by
    intro r hr
    cases data with
    | nil => simp at hr
    | cons r0 rs =>
      have h0 : r0.length = W := hW r0 (List.mem_cons_self r0 rs)
      have hrW : r.length = W := hW r hr
      simp [ncolsOf, h0, hrW]
  refine ⟨_, mkTable_spec data colNames catalog pref hle hcn', ?_, ?_, ?_, ?_⟩
  · by_cases he : colNames.isEmpty <;> simp [he, Nat.add_comm]
  · intro row hrow
    rcases List.mem_append.mp hrow with hh | hh
    · by_cases he : colNames.isEmpty
      · simp [he] at hh
      · simp only [he, if_false] at hh
        rcases List.mem_singleton.mp hh with rfl
        exact rowRender_length hcn'
    · rcases List.mem_map.mp hh with ⟨r, hr, rfl⟩
      exact rowRender_length (hle r hr)
  · intro he
    simp [he]
  · intro hdata he
    subst hdata
    have : ncolsOf [] colNames = colNames.length := by simp [ncolsOf, he]
    simp [he, this, rowRender]

/-- C3 counterexample: one data row of width 1 with a header of width 2 —
the header fill hits an `IndexError` (modelled `none`), so no table with
the claimed shape is produced. -/
theorem c3_counterexample :
    mkTable [[Val.vInt 1]] [Val.vStr "a", Val.vStr "b"] [] "Table Grid"
      = none := by
  decide

/-- C3 witness: the E2E-1 style table `[[82, 2]]` with header
`["Spot", "Payoff"]` has 2 rows. -/
theorem c3_witness :
    (mkTable [[Val.vInt 82, Val.vInt 2]] [Val.vStr "Spot", Val.vStr "Payoff"]
        [] "Table Grid").map (fun g => g.rows.length) = some 2 := by
  rcases c3_table_shape [[Val.vInt 82, Val.vInt 2]]
      [Val.vStr "Spot", Val.vStr "Payoff"] [] "Table Grid" 2
      (by decide) (by decide) with ⟨g, hg, hlen, -, -, -⟩
  rw [hg, Option.map_some']
  simpa using hlen

/-- C5 (amended): the cell-rendering rule is Python `str`: an integral
float renders with a trailing `.0` (`84.0 → "84.0"`), a non-integral float
renders its shortest decimal form (`84.5 → "84.5"`); ints and strings
render via their natural string form. -/
theorem c5_cell_rendering :
    pyStr (.vFloat 84 0) = "84.0" ∧ pyStr (.vFloat 845 1) = "84.5" ∧
    (∀ n : Int, pyStr (.vInt n) = toString n) ∧
    (∀ s : String, pyStr (.vStr s) = s) ∧
    mkTable [[Val.vFloat 84 0, Val.vFloat 845 1]] [] [] "Table Grid"
      = some ⟨[["84.0", "84.5"]], none⟩ :=
  ⟨by decide, by decide, fun n => rfl, fun s => rfl, by decide⟩

/-- C5 counterexample: the code renders the integral float `84.0` as
`"84.0"`, not `"84"` as the claimed 4-decimal rule (`specCellRender`)
demands; likewise `84.5` renders `"84.5"`, not `"84.5000"`. -/
theorem c5_counterexample :
    pyStr (.vFloat 84 0) = "84.0" ∧ specCellRender (.vFloat 84 0) = "84" ∧
    pyStr (.vFloat 84 0) ≠ specCellRender (.vFloat 84 0) ∧
    specCellRender (.vFloat 845 1) = "84.5000" ∧
    pyStr (.vFloat 845 1) ≠ specCellRender (.vFloat 845 1) := by
  decide

/-- C6 (amended): rows no wider than the first row are non-fatal: the
table is produced, each row rendered cell-by-cell with whatever values are
present, a short row leaving its remaining cells unpopulated (empty text).
A row wider than the first raises `IndexError` (see the counterexample),
so the hypothesis bounds every row by the grid width. -/
theorem c6_ragged_rows (data : List (List Val)) (colNames : List Val)
    (catalog : List String) (pref : String)
    (h : ∀ r ∈ data, r.length ≤ ncolsOf data colNames)
    (hcn : colNames.length ≤ ncolsOf data colNames) :
    ∃ g, mkTable data colNames catalog pref = some g ∧
      g.rows = (if colNames.isEmpty then []
          else [rowRender (ncolsOf data colNames) colNames])
        ++ data.map (rowRender (ncolsOf data colNames)) ∧
      ∀ r ∈ data, rowRender (ncolsOf data colNames) r
        = r.map pyStr ++
            List.replicate (ncolsOf data colNames - r.length) "" :=
  ⟨_, mkTable_spec data colNames catalog pref h hcn, rfl, fun _ _ => rfl⟩

/-- C6 counterexample: ragged data where the second row is wider than the
first — the cell fill hits an `IndexError` (modelled `none`): an error is
raised, construction is not non-fatal. -/
theorem c6_counterexample :
    mkTable [[Val.vInt 1], [Val.vInt 2, Val.vInt 3]] [] [] "Table Grid"
      = none := by
  decide

/-- C6 witness: a short second row renders with its trailing cell left
empty and no error. -/
theorem c6_witness :
    (mkTable [[Val.vInt 1, Val.vInt 2], [Val.vInt 3]] [] [] "Table Grid").map
        Grid.rows = some [["1", "2"], ["3", ""]] := by
  rcases c6_ragged_rows [[Val.vInt 1, Val.vInt 2], [Val.vInt 3]] [] []
      "Table Grid" (by decide) (by decide) with ⟨g, hg, hrows, -⟩
  rw [hg, Option.map_some', hrows]
  decide

theorem gridRows_map_mk (o : Option (List (List String)))
    (st₁ st₂ : Option String) :
    (o.map fun rs => Grid.mk rs st₁).map Grid.rows
      = (o.map fun rs => Grid.mk rs st₂).map Grid.rows := by
  cases o <;> rfl

/-- C9: applying the named grid style never fails the operation: the
produced rows are the same whatever the style catalog, and when the
catalog lacks the preferred style the table simply carries no style. -/
theorem c9_style_fallback (data : List (List Val)) (colNames : List Val)
    (catalog : List String) (pref : String) (h : pref ∉ catalog) :
    (mkTable data colNames catalog pref).map Grid.rows
      = (mkTable data colNames [pref] pref).map Grid.rows ∧
    ∀ g, mkTable data colNames catalog pref = some g → g.style = none := by
  constructor
  · unfold mkTable
    exact gridRows_map_mk _ _ _
  · intro g hgg
    unfold mkTable at hgg
    rcases Option.map_eq_some'.mp hgg with ⟨rs, _, rfl⟩
    simp [h]

/-- C9 witness: an empty style catalog yields the same rows as a catalog
containing the style. -/
theorem c9_witness :
    (mkTable [[Val.vInt 1]] [] [] "Table Grid").map Grid.rows
      = (mkTable [[Val.vInt 1]] [] ["Table Grid"] "Table Grid").map
          Grid.rows :=
  (c9_style_fallback [[Val.vInt 1]] [] [] "Table Grid" (by decide)).1

theorem getElem?_modifyAt_self {α : Type} (f : α → α) :
    ∀ (l : List α) (i : Nat), (modifyAt f l i)[i]? = l[i]?.map f := by
  intro l
  induction l with
  | nil => intro i; cases i <;> rfl
  | cons a l ih =>
    intro i
    cases i with
    | zero => simp [modifyAt]
    | succ i => simpa [modifyAt] using ih i

theorem modifyAt_eq_take_drop {α : Type} (f : α → α) :
    ∀ (l : List α) (i : Nat) (a : α), l[i]? = some a →
      modifyAt f l i = l.take i ++ f a :: l.drop (i + 1) := by
  intro l
  induction l with
  | nil => intro i a h; simp at h
  | cons b l ih =>
    intro i a h
    cases i with
    | zero =>
      simp only [List.getElem?_cons_zero, Option.some.injEq] at h
      subst h
      rfl
    | succ i =>
      simp only [List.getElem?_cons_succ] at h
      simp [modifyAt, ih i a h]

theorem insertAfterIdx_take_drop {α : Type} (x y : α) :
    ∀ (l : List α) (i : Nat), i < l.length →
      insertAfterIdx y (l.take i ++ x :: l.drop (i + 1)) i
        = l.take i ++ x :: y :: l.drop (i + 1) := by
  intro l
  induction l with
  | nil => intro i h; simp at h
  | cons a l ih =>
    intro i h
    cases i with
    | zero => rfl
    | succ i =>
      have h' : i < l.length := Nat.lt_of_succ_lt_succ h
      simp only [List.take_succ_cons, List.drop_succ_cons, List.cons_append,
        insertAfterIdx]
      exact congrArg (fun t => a :: t) (ih i h')

theorem insertAfterIdx_eq {α : Type} (x : α) :
    ∀ (l : List α) (i : Nat), i < l.length →
      insertAfterIdx x l i = l.take (i + 1) ++ x :: l.drop (i + 1) := by
  intro l
  induction l with
  | nil => intro i h; simp at h
  | cons a l ih =>
    intro i h
    cases i with
    | zero => simp [insertAfterIdx]
    | succ i =>
      have h' : i < l.length := Nat.lt_of_succ_lt_succ h
      simp [insertAfterIdx, ih i h', List.take_succ_cons,
        List.drop_succ_cons]

theorem blockParas_insertAfterIdx_bg (g : Grid) :
    ∀ (l : List Block) (i : Nat),
      blockParas (insertAfterIdx (.bg g) l i) = blockParas l := by
  intro l
  induction l with
  | nil => intro i; rfl
  | cons b l ih =>
    intro i
    cases i with
    | zero => cases b <;> simp [insertAfterIdx]
    | succ i => cases b <;> simp [insertAfterIdx, ih i]

theorem tablesCellParas_insertAfterIdx_bg (g : Grid) :
    ∀ (l : List Block) (i : Nat),
      tablesCellParas (insertAfterIdx (.bg g) l i) = tablesCellParas l := by
  intro l
  induction l with
  | nil => intro i; rfl
  | cons b l ih =>
    intro i
    cases i with
    | zero => cases b <;> simp [insertAfterIdx]
    | succ i => cases b <;> simp [insertAfterIdx, ih i]

theorem locContainer_updContainer (f : List Block → List Block) (d : Doc)
    (loc : Loc) (h : locPathOK d loc) :
    locContainer (updContainer f d loc) loc = f (locContainer d loc) := by
  cases loc with
  | body i => rfl
  | cell bi ri ci j =>
    rcases h with ⟨rows, row, cell, hbi, hri, hci⟩
    simp only [locContainer, updContainer, getElem?_modifyAt_self, hbi,
      Option.map_some', Option.some_bind, hri, hci, Option.getD_some]
  | hdr si i =>
    rcases h with ⟨s, hs⟩
    simp only [locContainer, updContainer, getElem?_modifyAt_self, hs,
      Option.map_some', Option.getD_some]
  | ftr si i =>
    rcases h with ⟨s, hs⟩
    simp only [locContainer, updContainer, getElem?_modifyAt_self, hs,
      Option.map_some', Option.getD_some]

theorem locPathOK_updContainer (f : List Block → List Block) (d : Doc)
    (loc : Loc) (h : locPathOK d loc) :
    locPathOK (updContainer f d loc) loc := by
  cases loc with
  | body i => trivial
  | cell bi ri ci j =>
    rcases h with ⟨rows, row, cell, hbi, hri, hci⟩
    refine ⟨modifyAt (fun row => modifyAt f row ci) rows ri,
      modifyAt f row ci, f cell, ?_, ?_, ?_⟩
    · simp only [updContainer, getElem?_modifyAt_self, hbi, Option.map_some']
    · simp only [getElem?_modifyAt_self, hri, Option.map_some']
    · simp only [getElem?_modifyAt_self, hci, Option.map_some']
  | hdr si i =>
    rcases h with ⟨s, hs⟩
    exact ⟨⟨f s.header, s.footer⟩,
      by simp only [updContainer, getElem?_modifyAt_self, hs, Option.map_some']⟩
  | ftr si i =>
    rcases h with ⟨s, hs⟩
    exact ⟨⟨s.header, f s.footer⟩,
      by simp only [updContainer, getElem?_modifyAt_self, hs, Option.map_some']⟩

theorem findParaIdx_some (m : Txt) :
    ∀ (bs : List Block) (i : Nat), findParaIdx m bs = some i →
      ∃ p, bs[i]? = some (.bp p) ∧ pyIn m (paraText p) = true := by
  intro bs
  induction bs with
  | nil => intro i h; simp [findParaIdx] at h
  | cons b bs ih =>
    intro i h
    by_cases hb : markerBlockP m b
    · rw [findParaIdx, if_pos hb] at h
      injection h with h'
      subst h'
      cases b with
      | bp p => exact ⟨p, by simp, by simpa [markerBlockP] using hb⟩
      | bt rows => simp [markerBlockP] at hb
      | bg g => simp [markerBlockP] at hb
    · rw [findParaIdx, if_neg hb] at h
      rcases Option.map_eq_some'.mp h with ⟨j, hj, rfl⟩
      rcases ih j hj with ⟨p, hp, hin⟩
      exact ⟨p, by simpa using hp, hin⟩

theorem findInRow_some (m : Txt) :
    ∀ (row : List (List Block)) (ci j : Nat),
      findInRow m row = some (ci, j) →
      ∃ cell p, row[ci]? = some cell ∧ cell[j]? = some (.bp p) ∧
        pyIn m (paraText p) = true := by
  intro row
  induction row with
  | nil => intro ci j h; simp [findInRow] at h
  | cons cell cells ih =>
    intro ci j h
    rw [findInRow] at h
    cases hfp : findParaIdx m cell with
    | some i0 =>
      rw [hfp] at h
      injection h with h'
      simp only [Prod.mk.injEq] at h'
      obtain ⟨rfl, rfl⟩ := h'
      rcases findParaIdx_some m cell i0 hfp with ⟨p, hp, hin⟩
      exact ⟨cell, p, by simp, hp, hin⟩
    | none =>
      rw [hfp] at h
      rcases Option.map_eq_some'.mp h with ⟨⟨ci', j'⟩, hx, heq⟩
      simp only [Prod.mk.injEq] at heq
      obtain ⟨rfl, rfl⟩ := heq
      rcases ih ci' j' hx with ⟨cell', p, h1, h2, h3⟩
      exact ⟨cell', p, by simpa using h1, h2, h3⟩

theorem findInRows_some (m : Txt) :
    ∀ (rows : List (List (List Block))) (ri ci j : Nat),
      findInRows m rows = some (ri, ci, j) →
      ∃ row cell p, rows[ri]? = some row ∧ row[ci]? = some cell ∧
        cell[j]? = some (.bp p) ∧ pyIn m (paraText p) = true := by
  intro rows
  induction rows with
  | nil => intro ri ci j h; simp [findInRows] at h
  | cons row rows ih =>
    intro ri ci j h
    rw [findInRows] at h
    cases hfr : findInRow m row with
    | some x =>
      obtain ⟨ci0, j0⟩ := x
      rw [hfr] at h
      injection h with h'
      simp only [Prod.mk.injEq] at h'
      obtain ⟨rfl, rfl, rfl⟩ := h'
      rcases findInRow_some m row ci0 j0 hfr with ⟨cell, p, h1, h2, h3⟩
      exact ⟨row, cell, p, by simp, h1, h2, h3⟩
    | none =>
      rw [hfr] at h
      rcases Option.map_eq_some'.mp h with ⟨⟨ri', ci', j'⟩, hx, heq⟩
      simp only [Prod.mk.injEq] at heq
      obtain ⟨rfl, rfl, rfl⟩ := heq
      rcases ih ri' ci' j' hx with ⟨row', cell, p, h1, h2, h3, h4⟩
      exact ⟨row', cell, p, by simpa using h1, h2, h3, h4⟩

theorem findInTables_some (m : Txt) :
    ∀ (bs : List Block) (bi ri ci j : Nat),
      findInTables m bs = some (bi, ri, ci, j) →
      ∃ rows row cell p, bs[bi]? = some (.bt rows) ∧ rows[ri]? = some row ∧
        row[ci]? = some cell ∧ cell[j]? = some (.bp p) ∧
        pyIn m (paraText p) = true := by
  intro bs
  induction bs with
  | nil => intro bi ri ci j h; simp [findInTables] at h
  | cons b bs ih =>
    intro bi ri ci j h
    cases b with
    | bt rows =>
      rw [findInTables] at h
      cases hfr : findInRows m rows with
      | some x =>
        obtain ⟨ri0, ci0, j0⟩ := x
        rw [hfr] at h
        injection h with h'
        simp only [Prod.mk.injEq] at h'
        obtain ⟨rfl, rfl, rfl, rfl⟩ := h'
        rcases findInRows_some m rows ri0 ci0 j0 hfr with
          ⟨row, cell, p, h1, h2, h3, h4⟩
        exact ⟨rows, row, cell, p, by simp, h1, h2, h3, h4⟩
      | none =>
        rw [hfr] at h
        rcases Option.map_eq_some'.mp h with ⟨⟨bi', ri', ci', j'⟩, hx, heq⟩
        simp only [Prod.mk.injEq] at heq
        obtain ⟨rfl, rfl, rfl, rfl⟩ := heq
        rcases ih bi' ri' ci' j' hx with
          ⟨rows', row, cell, p, h1, h2, h3, h4, h5⟩
        exact ⟨rows', row, cell, p, by simpa using h1, h2, h3, h4, h5⟩
    | bp p0 =>
      replace h : (findInTables m bs).map (fun x => (x.1 + 1, x.2))
          = some (bi, ri, ci, j) := h
      rcases Option.map_eq_some'.mp h with ⟨⟨bi', ri', ci', j'⟩, hx, heq⟩
      simp only [Prod.mk.injEq] at heq
      obtain ⟨rfl, rfl, rfl, rfl⟩ := heq
      rcases ih bi' ri' ci' j' hx with
        ⟨rows', row, cell, p, h1, h2, h3, h4, h5⟩
      exact ⟨rows', row, cell, p, by simpa using h1, h2, h3, h4, h5⟩
    | bg g0 =>
      replace h : (findInTables m bs).map (fun x => (x.1 + 1, x.2))
          = some (bi, ri, ci, j) := h
      rcases Option.map_eq_some'.mp h with ⟨⟨bi', ri', ci', j'⟩, hx, heq⟩
      simp only [Prod.mk.injEq] at heq
      obtain ⟨rfl, rfl, rfl, rfl⟩ := heq
      rcases ih bi' ri' ci' j' hx with
        ⟨rows', row, cell, p, h1, h2, h3, h4, h5⟩
      exact ⟨rows', row, cell, p, by simpa using h1, h2, h3, h4, h5⟩

theorem findInSections_some (m : Txt) :
    ∀ (ss : List Sect) (loc : Loc), findInSections m ss = some loc →
      (∃ si i s p, loc = .hdr si i ∧ ss[si]? = some s ∧
        s.header[i]? = some (.bp p) ∧ pyIn m (paraText p) = true) ∨
      (∃ si i s p, loc = .ftr si i ∧ ss[si]? = some s ∧
        s.footer[i]? = some (.bp p) ∧ pyIn m (paraText p) = true) := by
  intro ss
  induction ss with
  | nil => intro loc h; simp [findInSections] at h
  | cons s ss ih =>
    intro loc h
    rw [findInSections] at h
    cases hh : findParaIdx m s.header with
    | some i =>
      rw [hh] at h
      injection h with h'
      subst h'
      rcases findParaIdx_some m s.header i hh with ⟨p, hp, hin⟩
      exact Or.inl ⟨0, i, s, p, rfl, by simp, hp, hin⟩
    | none =>
      rw [hh] at h
      cases hf : findParaIdx m s.footer with
      | some i =>
        rw [hf] at h
        injection h with h'
        subst h'
        rcases findParaIdx_some m s.footer i hf with ⟨p, hp, hin⟩
        exact Or.inr ⟨0, i, s, p, rfl, by simp, hp, hin⟩
      | none =>
        rw [hf] at h
        rcases Option.map_eq_some'.mp h with ⟨loc0, hx, heq⟩
        subst heq
        rcases ih loc0 hx with ⟨si, i, s', p, rfl, hs, hp, hin⟩ |
          ⟨si, i, s', p, rfl, hs, hp, hin⟩
        · exact Or.inl ⟨si + 1, i, s', p, rfl, by simpa using hs, hp, hin⟩
        · exact Or.inr ⟨si + 1, i, s', p, rfl, by simpa using hs, hp, hin⟩

theorem find_loc_valid (d : Doc) (m : Txt) (loc : Loc)
    (h : find_paragraph_with_placeholder d m = some loc) :
    locPathOK d loc ∧
    ∃ p, (locContainer d loc)[locIdx loc]? = some (.bp p) ∧
      pyIn m (paraText p) = true := by
  rw [find_paragraph_with_placeholder] at h
  cases hb : findParaIdx m d.body with
  | some i =>
    rw [hb] at h
    injection h with h'
    subst h'
    rcases findParaIdx_some m d.body i hb with ⟨p, hp, hin⟩
    exact ⟨trivial, p, hp, hin⟩
  | none =>
    rw [hb] at h
    cases ht : findInTables m d.body with
    | some x =>
      obtain ⟨bi, ri, ci, j⟩ := x
      rw [ht] at h
      injection h with h'
      subst h'
      rcases findInTables_some m d.body bi ri ci j ht with
        ⟨rows, row, cell, p, h1, h2, h3, h4, h5⟩
      refine ⟨⟨rows, row, cell, h1, h2, h3⟩, p, ?_, h5⟩
      simp only [locContainer, locIdx, h1, Option.some_bind, h2, h3,
        Option.getD_some]
      exact h4
    | none =>
      rw [ht] at h
      rcases findInSections_some m d.sections loc h with
        ⟨si, i, s, p, rfl, hs, hp, hin⟩ | ⟨si, i, s, p, rfl, hs, hp, hin⟩
      · refine ⟨⟨s, hs⟩, p, ?_, hin⟩
        simp only [locContainer, locIdx, hs, Option.map_some',
          Option.getD_some]
        exact hp
      · refine ⟨⟨s, hs⟩, p, ?_, hin⟩
        simp only [locContainer, locIdx, hs, Option.map_some',
          Option.getD_some]
        exact hp

theorem lastParaIdx_none :
    ∀ (bs : List Block), lastParaIdx bs = none →
      ∀ (k : Nat) (p : Paragraph), bs[k]? ≠ some (.bp p) := by
  intro bs
  induction bs with
  | nil => intro _ k p h; simp at h
  | cons b bs ih =>
    intro h k p hk
    rw [lastParaIdx] at h
    cases hl : lastParaIdx bs with
    | some i =>
      rw [hl] at h
      simp at h
    | none =>
      rw [hl] at h
      by_cases hb : isPara b
      · simp [hb] at h
      · cases k with
        | zero =>
          simp only [List.getElem?_cons_zero, Option.some.injEq] at hk
          subst hk
          exact hb rfl
        | succ k => exact ih hl k p (by simpa using hk)

theorem lastParaIdx_some :
    ∀ (bs : List Block) (j : Nat), lastParaIdx bs = some j →
      (∃ p, bs[j]? = some (.bp p)) ∧
      ∀ (k : Nat), j < k → ∀ (p : Paragraph), bs[k]? ≠ some (.bp p) := by
  intro bs
  induction bs with
  | nil => intro j h; simp [lastParaIdx] at h
  | cons b bs ih =>
    intro j h
    rw [lastParaIdx] at h
    cases hl : lastParaIdx bs with
    | some i =>
      rw [hl] at h
      simp at h
      subst h
      rcases ih i hl with ⟨⟨p, hp⟩, hafter⟩
      refine ⟨⟨p, by simpa using hp⟩, ?_⟩
      intro k hk q hq
      cases k with
      | zero => omega
      | succ k =>
        simp only [List.getElem?_cons_succ] at hq
        exact hafter k (by omega) q hq
    | none =>
      rw [hl] at h
      by_cases hb : isPara b
      · rw [if_pos hb] at h
        injection h with h'
        subst h'
        cases b with
        | bp p =>
          refine ⟨⟨p, by simp⟩, ?_⟩
          intro k hk q hq
          cases k with
          | zero => omega
          | succ k =>
            simp only [List.getElem?_cons_succ] at hq
            exact lastParaIdx_none bs hl k q hq
        | bt rows => simp [isPara] at hb
        | bg g => simp [isPara] at hb
      · rw [if_neg hb] at h
        exact Option.noConfusion h

/-- C2 (amended): when the marker is found in a paragraph at index `i` of
its sibling sequence, the generate step succeeds and the new table node
occupies position `i + 1`, immediately after the marker paragraph, with
all other siblings preserved; the marker paragraph is NOT removed — it
stays at position `i` with every marker occurrence deleted from its text
(so its text is empty only when it consisted solely of marker
occurrences). -/
theorem c2_splice_position (d : Doc) (m : Txt) (data : List (List Val))
    (colNames : List Val) (catalog : List String) (pref : String)
    (loc : Loc) (g : Grid)
    (hf : find_paragraph_with_placeholder d m = some loc)
    (hg : mkTable data colNames catalog pref = some g) :
    ∃ p, (locContainer d loc)[locIdx loc]? = some (.bp p) ∧
      pyIn m (paraText p) = true ∧
      generateTermSheet d m data colNames catalog pref
        = some (insertGridAt (clearAt d loc m) loc g, false) ∧
      locContainer (insertGridAt (clearAt d loc m) loc g) loc
        = (locContainer d loc).take (locIdx loc)
          ++ Block.bp ⟨[pyReplace m [] (paraText p)]⟩
            :: Block.bg g :: (locContainer d loc).drop (locIdx loc + 1) := by
  rcases find_loc_valid d m loc hf with ⟨hpath, p, hp, hin⟩
  refine ⟨p, hp, hin, ?_, ?_⟩
  · simp only [generateTermSheet, hf, insert_table_after_paragraph, hg,
      Option.map_some']
  · have h1 : locContainer (clearAt d loc m) loc
        = modifyAt (clearBlock m) (locContainer d loc) (locIdx loc) :=
      locContainer_updContainer _ d loc hpath
    have hpath1 : locPathOK (clearAt d loc m) loc :=
      locPathOK_updContainer _ d loc hpath
    have h2 : locContainer (insertGridAt (clearAt d loc m) loc g) loc
        = insertAfterIdx (.bg g) (locContainer (clearAt d loc m) loc)
          (locIdx loc) :=
      locContainer_updContainer _ (clearAt d loc m) loc hpath1
    have hidx : locIdx loc < (locContainer d loc).length := by
      by_contra hcon
      rw [List.getElem?_eq_none (Nat.le_of_not_lt hcon)] at hp
      exact Option.noConfusion hp
    rw [h2, h1, modifyAt_eq_take_drop _ _ _ _ hp,
      insertAfterIdx_take_drop _ _ _ _ hidx]
    have hclear : clearBlock m (.bp p)
        = .bp ⟨[pyReplace m [] (paraText p)]⟩ := by
      simp [clearBlock, replPara, hin]
    rw [hclear]

/-- C2 counterexample: a body paragraph `"x{{ScenarioTable}}y"` (braces
escaped in the literal). After the generate step the paragraph is still in
the tree, followed by the new table, and its text is `"xy"` — neither
absent nor empty. -/
theorem c2_counterexample :
    (generateTermSheet ⟨[.bp ⟨[txt "x\x7b\x7bScenarioTable\x7d\x7dy"]⟩], []⟩
        (txt "\x7b\x7bScenarioTable\x7d\x7d") [[Val.vInt 1]] [] []
        "Table Grid").map
        (fun r => (r.1.body.map blockKind,
          (blockParas r.1.body).map paraText, r.2))
      = some ([0, 2], [txt "xy"], false) ∧ txt "xy" ≠ [] := by
  decide

/-- C2 witness: the amended theorem at a document whose first body
paragraph holds the marker. -/
theorem c2_witness :
    ∃ p, (locContainer ⟨[.bp ⟨[txt "\x7b\x7bScenarioTable\x7d\x7d"]⟩,
        .bp ⟨[txt "z"]⟩], []⟩ (Loc.body 0))[locIdx (Loc.body 0)]?
        = some (.bp p) ∧
      pyIn (txt "\x7b\x7bScenarioTable\x7d\x7d") (paraText p) = true ∧
      generateTermSheet ⟨[.bp ⟨[txt "\x7b\x7bScenarioTable\x7d\x7d"]⟩,
          .bp ⟨[txt "z"]⟩], []⟩ (txt "\x7b\x7bScenarioTable\x7d\x7d")
          [[Val.vInt 1]] [] [] "Table Grid"
        = some (insertGridAt (clearAt ⟨[.bp ⟨[txt "\x7b\x7bScenarioTable\x7d\x7d"]⟩,
            .bp ⟨[txt "z"]⟩], []⟩ (Loc.body 0)
            (txt "\x7b\x7bScenarioTable\x7d\x7d")) (Loc.body 0)
            ⟨[["1"]], none⟩, false) ∧
      locContainer (insertGridAt (clearAt ⟨[.bp ⟨[txt "\x7b\x7bScenarioTable\x7d\x7d"]⟩,
          .bp ⟨[txt "z"]⟩], []⟩ (Loc.body 0)
          (txt "\x7b\x7bScenarioTable\x7d\x7d")) (Loc.body 0)
          ⟨[["1"]], none⟩) (Loc.body 0)
        = (locContainer ⟨[.bp ⟨[txt "\x7b\x7bScenarioTable\x7d\x7d"]⟩,
            .bp ⟨[txt "z"]⟩], []⟩ (Loc.body 0)).take (locIdx (Loc.body 0))
          ++ Block.bp ⟨[pyReplace (txt "\x7b\x7bScenarioTable\x7d\x7d") []
              (paraText p)]⟩
            :: Block.bg ⟨[["1"]], none⟩
            :: (locContainer ⟨[.bp ⟨[txt "\x7b\x7bScenarioTable\x7d\x7d"]⟩,
              .bp ⟨[txt "z"]⟩], []⟩ (Loc.body 0)).drop (locIdx (Loc.body 0) + 1) :=
  c2_splice_position ⟨[.bp ⟨[txt "\x7b\x7bScenarioTable\x7d\x7d"]⟩,
      .bp ⟨[txt "z"]⟩], []⟩ (txt "\x7b\x7bScenarioTable\x7d\x7d")
    [[Val.vInt 1]] [] [] "Table Grid" (Loc.body 0) ⟨[["1"]], none⟩
    (by decide) (by decide)

/-- C4 (amended): when the marker is absent from the search domain and the
body has a last paragraph (at index `j`), the generate step splices the
new table immediately after that last paragraph — which is the last body
child only when no non-paragraph block follows it — signals the warning,
and leaves every original paragraph unchanged. (With no body paragraph at
all, `doc.paragraphs[-1]` raises instead.) -/
theorem c4_fallback_append (d : Doc) (m : Txt) (data : List (List Val))
    (colNames : List Val) (catalog : List String) (pref : String)
    (j : Nat) (g : Grid)
    (hf : find_paragraph_with_placeholder d m = none)
    (hj : lastParaIdx d.body = some j)
    (hg : mkTable data colNames catalog pref = some g) :
    generateTermSheet d m data colNames catalog pref
      = some (⟨insertAfterIdx (.bg g) d.body j, d.sections⟩, true) ∧
    (∃ p, d.body[j]? = some (.bp p)) ∧
    (∀ (k : Nat), j < k → ∀ (p : Paragraph), d.body[k]? ≠ some (.bp p)) ∧
    insertAfterIdx (.bg g) d.body j
      = d.body.take (j + 1) ++ .bg g :: d.body.drop (j + 1) ∧
    scanParas ⟨insertAfterIdx (.bg g) d.body j, d.sections⟩ = scanParas d ∧
    (j + 1 = d.body.length →
      insertAfterIdx (.bg g) d.body j = d.body ++ [.bg g]) := by
  rcases lastParaIdx_some d.body j hj with ⟨⟨p, hp⟩, hafter⟩
  have hidx : j < d.body.length := by
    by_contra hcon
    rw [List.getElem?_eq_none (Nat.le_of_not_lt hcon)] at hp
    exact Option.noConfusion hp
  refine ⟨?_, ⟨p, hp⟩, hafter, insertAfterIdx_eq _ _ _ hidx, ?_, ?_⟩
  · simp only [generateTermSheet, hf, hj, insert_table_after_paragraph, hg,
      Option.map_some']
    rfl
  · obtain ⟨body, sections⟩ := d
    simp [scanParas, blockParas_insertAfterIdx_bg,
      tablesCellParas_insertAfterIdx_bg]
  · intro hlen
    rw [insertAfterIdx_eq _ _ _ hidx]
    have ht : d.body.take (j + 1) = d.body := by
      rw [hlen]
      exact List.take_length d.body
    have hd : d.body.drop (j + 1) = [] := by
      rw [hlen]
      exact List.drop_length d.body
    rw [ht, hd]

/-- C4 counterexample: body = [paragraph "x", table]; the marker is absent,
so the fallback inserts the new table after the last paragraph — in the
middle, kinds [paragraph, inserted-table, pre-existing-table] — so the
last body child is the old table, not the inserted one. -/
theorem c4_counterexample :
    (generateTermSheet ⟨[.bp ⟨[txt "x"]⟩, .bt []], []⟩ (txt "Z")
        [[Val.vInt 1]] [] [] "Table Grid").map
        (fun r => (r.1.body.map blockKind, r.2))
      = some ([0, 2, 1], true) ∧
    ([0, 2, 1] : List Nat).getLast? = some 1 := by
  decide

/-- C4 witness: with the body ending in its last paragraph, the fallback
appends the table as the last child and warns. -/
theorem c4_witness :
    generateTermSheet ⟨[.bp ⟨[txt "x"]⟩], []⟩ (txt "Z") [[Val.vInt 1]] [] []
        "Table Grid"
      = some (⟨insertAfterIdx (.bg ⟨[["1"]], none⟩) [.bp ⟨[txt "x"]⟩] 0,
          []⟩, true) :=
  (c4_fallback_append ⟨[.bp ⟨[txt "x"]⟩], []⟩ (txt "Z") [[Val.vInt 1]] [] []
      "Table Grid" 0 ⟨[["1"]], none⟩ (by decide) (by decide) (by decide)).1

theorem mem_of_getElem? {α : Type} :
    ∀ {l : List α} {i : Nat} {a : α}, l[i]? = some a → a ∈ l := by
  intro l
  induction l with
  | nil => intro i a h; simp at h
  | cons b l ih =>
    intro i a h
    cases i with
    | zero =>
      simp only [List.getElem?_cons_zero, Option.some.injEq] at h
      subst h
      exact List.mem_cons_self _ _
    | succ i =>
      simp only [List.getElem?_cons_succ] at h
      exact List.mem_cons_of_mem _ (ih h)

theorem mem_blockParas_of_mem :
    ∀ {bs : List Block} {p : Paragraph}, .bp p ∈ bs → p ∈ blockParas bs := by
  intro bs
  induction bs with
  | nil => intro p h; simp at h
  | cons b bs ih =>
    intro p h
    rcases List.mem_cons.mp h with hb | hmem
    · rw [← hb]
      simp
    · cases b <;> simp [ih hmem]

theorem findParaIdx_none (m : Txt) :
    ∀ bs : List Block, findParaIdx m bs = none ↔
      ∀ p ∈ blockParas bs, pyIn m (paraText p) = false := by
  intro bs
  induction bs with
  | nil => simp [findParaIdx, blockParas]
  | cons b bs ih =>
    rw [findParaIdx]
    by_cases hb : markerBlockP m b
    · rw [if_pos hb]
      constructor
      · intro h
        exact absurd h (by simp)
      · intro h
        cases b with
        | bp p =>
          have hp := h p (by simp)
          simp [markerBlockP, hp] at hb
        | bt rows => simp [markerBlockP] at hb
        | bg g => simp [markerBlockP] at hb
    · rw [if_neg hb, Option.map_eq_none', ih]
      cases b with
      | bp p =>
        have hp : pyIn m (paraText p) = false := by
          simpa [markerBlockP] using hb
        simp [hp]
      | bt rows => simp
      | bg g => simp

theorem findInRow_none (m : Txt) :
    ∀ row : List (List Block), findInRow m row = none ↔
      ∀ p ∈ row.flatMap fun cell => blockParas cell,
        pyIn m (paraText p) = false := by
  intro row
  induction row with
  | nil => simp [findInRow]
  | cons cell cells ih =>
    rw [findInRow]
    cases hfp : findParaIdx m cell with
    | some i =>
      constructor
      · intro h
        exact absurd h (by simp)
      · intro h
        rcases findParaIdx_some m cell i hfp with ⟨p, hp, hin⟩
        have hmem : p ∈ blockParas cell :=
          mem_blockParas_of_mem (mem_of_getElem? hp)
        have := h p (by simp; exact Or.inl hmem)
        rw [this] at hin
        exact Bool.noConfusion hin
    | none =>
      rw [Option.map_eq_none', ih]
      have hcell : ∀ p ∈ blockParas cell, pyIn m (paraText p) = false :=
        (findParaIdx_none m cell).mp hfp
      constructor
      · intro h q hq
        simp only [List.flatMap_cons, List.mem_append] at hq
        rcases hq with h1 | h1
        · exact hcell q h1
        · exact h q h1
      · intro h q hq
        exact h q (by simp [hq])

theorem findInRows_none (m : Txt) :
    ∀ rows : List (List (List Block)), findInRows m rows = none ↔
      ∀ p ∈ tableCellParas rows, pyIn m (paraText p) = false := by
  intro rows
  induction rows with
  | nil => simp [findInRows, tableCellParas]
  | cons row rows ih =>
    rw [findInRows]
    cases hfr : findInRow m row with
    | some x =>
      obtain ⟨ci, j⟩ := x
      constructor
      · intro h
        exact absurd h (by simp)
      · intro h
        rcases findInRow_some m row ci j hfr with ⟨cell, p, h1, h2, h3⟩
        have hmem : p ∈ tableCellParas (row :: rows) := by
          simp only [tableCellParas, List.flatMap_cons, List.mem_append]
          exact Or.inl (List.mem_flatMap.mpr ⟨cell, mem_of_getElem? h1,
            mem_blockParas_of_mem (mem_of_getElem? h2)⟩)
        have := h p hmem
        rw [this] at h3
        exact Bool.noConfusion h3
    | none =>
      rw [Option.map_eq_none', ih]
      have hrow := (findInRow_none m row).mp hfr
      constructor
      · intro h q hq
        simp only [tableCellParas, List.flatMap_cons, List.mem_append] at hq
        rcases hq with h1 | h1
        · exact hrow q h1
        · exact h q h1
      · intro h q hq
        apply h q
        rw [tableCellParas, List.flatMap_cons]
        exact List.mem_append.mpr (Or.inr hq)

theorem findInTables_none (m : Txt) :
    ∀ bs : List Block, findInTables m bs = none ↔
      ∀ p ∈ tablesCellParas bs, pyIn m (paraText p) = false := by
  intro bs
  induction bs with
  | nil => simp [findInTables, tablesCellParas]
  | cons b bs ih =>
    cases b with
    | bt rows =>
      rw [findInTables]
      cases hfr : findInRows m rows with
      | some x =>
        obtain ⟨ri, ci, j⟩ := x
        constructor
        · intro h
          exact absurd h (by simp)
        · intro h
          rcases findInRows_some m rows ri ci j hfr with
            ⟨row, cell, p, h1, h2, h3, h4⟩
          have hmem : p ∈ tableCellParas rows :=
            List.mem_flatMap.mpr ⟨row, mem_of_getElem? h1,
              List.mem_flatMap.mpr ⟨cell, mem_of_getElem? h2,
                mem_blockParas_of_mem (mem_of_getElem? h3)⟩⟩
          have := h p (by simp [hmem])
          rw [this] at h4
          exact Bool.noConfusion h4
      | none =>
        rw [Option.map_eq_none', ih]
        have hrows := (findInRows_none m rows).mp hfr
        constructor
        · intro h q hq
          simp only [tablesCellParas_cons_bt, List.mem_append] at hq
          rcases hq with h1 | h1
          · exact hrows q h1
          · exact h q h1
        · intro h q hq
          exact h q (by simp [hq])
    | bp p0 =>
      have heq : findInTables m (.bp p0 :: bs)
          = (findInTables m bs).map (fun x => (x.1 + 1, x.2)) := rfl
      rw [heq, Option.map_eq_none', ih]
      simp
    | bg g0 =>
      have heq : findInTables m (.bg g0 :: bs)
          = (findInTables m bs).map (fun x => (x.1 + 1, x.2)) := rfl
      rw [heq, Option.map_eq_none', ih]
      simp

theorem findInSections_none (m : Txt) :
    ∀ ss : List Sect, findInSections m ss = none ↔
      ∀ p ∈ ss.flatMap (fun s => blockParas s.header ++ blockParas s.footer),
        pyIn m (paraText p) = false := by
  intro ss
  induction ss with
  | nil => simp [findInSections]
  | cons s ss ih =>
    rw [findInSections]
    cases hh : findParaIdx m s.header with
    | some i =>
      constructor
      · intro h
        exact absurd h (by simp)
      · intro h
        rcases findParaIdx_some m s.header i hh with ⟨p, hp, hin⟩
        have := h p (by
          simp only [List.flatMap_cons, List.mem_append]
          exact Or.inl (Or.inl (mem_blockParas_of_mem (mem_of_getElem? hp))))
        rw [this] at hin
        exact Bool.noConfusion hin
    | none =>
      cases hf : findParaIdx m s.footer with
      | some i =>
        constructor
        · intro h
          exact absurd h (by simp)
        · intro h
          rcases findParaIdx_some m s.footer i hf with ⟨p, hp, hin⟩
          have := h p (by
            simp only [List.flatMap_cons, List.mem_append]
            exact Or.inl (Or.inr (mem_blockParas_of_mem (mem_of_getElem? hp))))
          rw [this] at hin
          exact Bool.noConfusion hin
      | none =>
        rw [Option.map_eq_none', ih]
        have hhdr := (findParaIdx_none m s.header).mp hh
        have hftr := (findParaIdx_none m s.footer).mp hf
        constructor
        · intro h q hq
          simp only [List.flatMap_cons, List.mem_append] at hq
          rcases hq with (h1 | h1) | h1
          · exact hhdr q h1
          · exact hftr q h1
          · exact h q h1
        · intro h q hq
          exact h q (by simp [hq])

theorem find?_cons_pos {α : Type} (pred : α → Bool) (a : α) (l : List α)
    (h : pred a = true) : (a :: l).find? pred = some a := by
  simp [List.find?, h]

theorem find?_cons_neg {α : Type} (pred : α → Bool) (a : α) (l : List α)
    (h : pred a = false) : (a :: l).find? pred = l.find? pred := by
  simp [List.find?, h]

theorem findParaIdx_find? (m : Txt) :
    ∀ (bs : List Block) (i : Nat), findParaIdx m bs = some i →
      ∃ p, bs[i]? = some (.bp p) ∧
        (blockParas bs).find? (fun q => pyIn m (paraText q)) = some p := by
  intro bs
  induction bs with
  | nil => intro i h; simp [findParaIdx] at h
  | cons b bs ih =>
    intro i h
    by_cases hb : markerBlockP m b
    · rw [findParaIdx, if_pos hb] at h
      injection h with h'
      subst h'
      cases b with
      | bp p =>
        have hin : pyIn m (paraText p) = true := by
          simpa [markerBlockP] using hb
        refine ⟨p, by simp, ?_⟩
        rw [blockParas_cons_bp]
        exact find?_cons_pos _ p _ hin
      | bt rows => simp [markerBlockP] at hb
      | bg g => simp [markerBlockP] at hb
    · rw [findParaIdx, if_neg hb] at h
      rcases Option.map_eq_some'.mp h with ⟨j, hj, rfl⟩
      rcases ih j hj with ⟨p, hp, hfind⟩
      cases b with
      | bp p0 =>
        have hf : pyIn m (paraText p0) = false := by
          simpa [markerBlockP] using hb
        refine ⟨p, by simpa using hp, ?_⟩
        rw [blockParas_cons_bp, find?_cons_neg _ p0 _ hf]
        exact hfind
      | bt rows => exact ⟨p, by simpa using hp, by simpa using hfind⟩
      | bg g => exact ⟨p, by simpa using hp, by simpa using hfind⟩

theorem findInRow_find? (m : Txt) :
    ∀ (row : List (List Block)) (ci j : Nat),
      findInRow m row = some (ci, j) →
      ∃ cell p, row[ci]? = some cell ∧ cell[j]? = some (.bp p) ∧
        (row.flatMap fun cell => blockParas cell).find?
          (fun q => pyIn m (paraText q)) = some p := by
  intro row
  induction row with
  | nil => intro ci j h; simp [findInRow] at h
  | cons cell cells ih =>
    intro ci j h
    rw [findInRow] at h
    cases hfp : findParaIdx m cell with
    | some i0 =>
      rw [hfp] at h
      injection h with h'
      simp only [Prod.mk.injEq] at h'
      obtain ⟨rfl, rfl⟩ := h'
      rcases findParaIdx_find? m cell i0 hfp with ⟨p, hp, hfind⟩
      refine ⟨cell, p, by simp, hp, ?_⟩
      rw [List.flatMap_cons, List.find?_append, hfind]
      rfl
    | none =>
      rw [hfp] at h
      rcases Option.map_eq_some'.mp h with ⟨⟨ci', j'⟩, hx, heq⟩
      simp only [Prod.mk.injEq] at heq
      obtain ⟨rfl, rfl⟩ := heq
      rcases ih ci' j' hx with ⟨cell', p, h1, h2, hfind⟩
      have hnone : (blockParas cell).find?
          (fun q => pyIn m (paraText q)) = none :=
        List.find?_eq_none.mpr fun x hx' => by
          simp [(findParaIdx_none m cell).mp hfp x hx']
      refine ⟨cell', p, by simpa using h1, h2, ?_⟩
      rw [List.flatMap_cons, List.find?_append, hnone, hfind]
      rfl

theorem findInRows_find? (m : Txt) :
    ∀ (rows : List (List (List Block))) (ri ci j : Nat),
      findInRows m rows = some (ri, ci, j) →
      ∃ row cell p, rows[ri]? = some row ∧ row[ci]? = some cell ∧
        cell[j]? = some (.bp p) ∧
        (tableCellParas rows).find? (fun q => pyIn m (paraText q))
          = some p := by
  intro rows
  induction rows with
  | nil => intro ri ci j h; simp [findInRows] at h
  | cons row rows ih =>
    intro ri ci j h
    rw [findInRows] at h
    cases hfr : findInRow m row with
    | some x =>
      obtain ⟨ci0, j0⟩ := x
      rw [hfr] at h
      injection h with h'
      simp only [Prod.mk.injEq] at h'
      obtain ⟨rfl, rfl, rfl⟩ := h'
      rcases findInRow_find? m row ci0 j0 hfr with ⟨cell, p, h1, h2, hfind⟩
      refine ⟨row, cell, p, by simp, h1, h2, ?_⟩
      rw [tableCellParas, List.flatMap_cons, List.find?_append, hfind]
      rfl
    | none =>
      rw [hfr] at h
      rcases Option.map_eq_some'.mp h with ⟨⟨ri', ci', j'⟩, hx, heq⟩
      simp only [Prod.mk.injEq] at heq
      obtain ⟨rfl, rfl, rfl⟩ := heq
      rcases ih ri' ci' j' hx with ⟨row', cell, p, h1, h2, h3, hfind⟩
      have hnone : (row.flatMap fun cell => blockParas cell).find?
          (fun q => pyIn m (paraText q)) = none :=
        List.find?_eq_none.mpr fun x hx' => by
          simp [(findInRow_none m row).mp hfr x hx']
      refine ⟨row', cell, p, by simpa using h1, h2, h3, ?_⟩
      rw [tableCellParas, List.flatMap_cons, List.find?_append, hnone]
      rw [tableCellParas] at hfind
      rw [hfind]
      rfl

theorem findInTables_find? (m : Txt) :
    ∀ (bs : List Block) (bi ri ci j : Nat),
      findInTables m bs = some (bi, ri, ci, j) →
      ∃ rows row cell p, bs[bi]? = some (.bt rows) ∧ rows[ri]? = some row ∧
        row[ci]? = some cell ∧ cell[j]? = some (.bp p) ∧
        (tablesCellParas bs).find? (fun q => pyIn m (paraText q))
          = some p := by
  intro bs
  induction bs with
  | nil => intro bi ri ci j h; simp [findInTables] at h
  | cons b bs ih =>
    intro bi ri ci j h
    cases b with
    | bt rows =>
      rw [findInTables] at h
      cases hfr : findInRows m rows with
      | some x =>
        obtain ⟨ri0, ci0, j0⟩ := x
        rw [hfr] at h
        injection h with h'
        simp only [Prod.mk.injEq] at h'
        obtain ⟨rfl, rfl, rfl, rfl⟩ := h'
        rcases findInRows_find? m rows ri0 ci0 j0 hfr with
          ⟨row, cell, p, h1, h2, h3, hfind⟩
        refine ⟨rows, row, cell, p, by simp, h1, h2, h3, ?_⟩
        rw [tablesCellParas_cons_bt, List.find?_append, hfind]
        rfl
      | none =>
        rw [hfr] at h
        rcases Option.map_eq_some'.mp h with ⟨⟨bi', ri', ci', j'⟩, hx, heq⟩
        simp only [Prod.mk.injEq] at heq
        obtain ⟨rfl, rfl, rfl, rfl⟩ := heq
        rcases ih bi' ri' ci' j' hx with
          ⟨rows', row, cell, p, h1, h2, h3, h4, hfind⟩
        have hnone : (tableCellParas rows).find?
            (fun q => pyIn m (paraText q)) = none :=
          List.find?_eq_none.mpr fun x hx' => by
            simp [(findInRows_none m rows).mp hfr x hx']
        refine ⟨rows', row, cell, p, by simpa using h1, h2, h3, h4, ?_⟩
        rw [tablesCellParas_cons_bt, List.find?_append, hnone, hfind]
        rfl
    | bp p0 =>
      replace h : (findInTables m bs).map (fun x => (x.1 + 1, x.2))
          = some (bi, ri, ci, j) := h
      rcases Option.map_eq_some'.mp h with ⟨⟨bi', ri', ci', j'⟩, hx, heq⟩
      simp only [Prod.mk.injEq] at heq
      obtain ⟨rfl, rfl, rfl, rfl⟩ := heq
      rcases ih bi' ri' ci' j' hx with
        ⟨rows', row, cell, p, h1, h2, h3, h4, hfind⟩
      exact ⟨rows', row, cell, p, by simpa using h1, h2, h3, h4,
        by simpa using hfind⟩
    | bg g0 =>
      replace h : (findInTables m bs).map (fun x => (x.1 + 1, x.2))
          = some (bi, ri, ci, j) := h
      rcases Option.map_eq_some'.mp h with ⟨⟨bi', ri', ci', j'⟩, hx, heq⟩
      simp only [Prod.mk.injEq] at heq
      obtain ⟨rfl, rfl, rfl, rfl⟩ := heq
      rcases ih bi' ri' ci' j' hx with
        ⟨rows', row, cell, p, h1, h2, h3, h4, hfind⟩
      exact ⟨rows', row, cell, p, by simpa using h1, h2, h3, h4,
        by simpa using hfind⟩

theorem findInSections_find? (m : Txt) :
    ∀ (ss : List Sect) (loc : Loc), findInSections m ss = some loc →
      ∃ p, ((∃ si i s, loc = .hdr si i ∧ ss[si]? = some s ∧
              s.header[i]? = some (.bp p)) ∨
            (∃ si i s, loc = .ftr si i ∧ ss[si]? = some s ∧
              s.footer[i]? = some (.bp p))) ∧
        (ss.flatMap fun s => blockParas s.header ++ blockParas s.footer).find?
          (fun q => pyIn m (paraText q)) = some p := by
  intro ss
  induction ss with
  | nil => intro loc h; simp [findInSections] at h
  | cons s ss ih =>
    intro loc h
    rw [findInSections] at h
    cases hh : findParaIdx m s.header with
    | some i =>
      rw [hh] at h
      injection h with h'
      subst h'
      rcases findParaIdx_find? m s.header i hh with ⟨p, hp, hfind⟩
      refine ⟨p, Or.inl ⟨0, i, s, rfl, by simp, hp⟩, ?_⟩
      rw [List.flatMap_cons, List.find?_append, List.find?_append, hfind]
      rfl
    | none =>
      rw [hh] at h
      cases hf : findParaIdx m s.footer with
      | some i =>
        rw [hf] at h
        injection h with h'
        subst h'
        rcases findParaIdx_find? m s.footer i hf with ⟨p, hp, hfind⟩
        have hnone : (blockParas s.header).find?
            (fun q => pyIn m (paraText q)) = none :=
          List.find?_eq_none.mpr fun x hx' => by
            simp [(findParaIdx_none m s.header).mp hh x hx']
        refine ⟨p, Or.inr ⟨0, i, s, rfl, by simp, hp⟩, ?_⟩
        rw [List.flatMap_cons, List.find?_append, List.find?_append, hnone,
          hfind]
        rfl
      | none =>
        rw [hf] at h
        rcases Option.map_eq_some'.mp h with ⟨loc0, hx, heq⟩
        subst heq
        rcases ih loc0 hx with ⟨p, hcase, hfind⟩
        have hnh : (blockParas s.header).find?
            (fun q => pyIn m (paraText q)) = none :=
          List.find?_eq_none.mpr fun x hx' => by
            simp [(findParaIdx_none m s.header).mp hh x hx']
        have hnf : (blockParas s.footer).find?
            (fun q => pyIn m (paraText q)) = none :=
          List.find?_eq_none.mpr fun x hx' => by
            simp [(findParaIdx_none m s.footer).mp hf x hx']
        refine ⟨p, ?_, ?_⟩
        · rcases hcase with ⟨si, i, s', rfl, hs, hp⟩ | ⟨si, i, s', rfl, hs, hp⟩
          · exact Or.inl ⟨si + 1, i, s', rfl, by simpa using hs, hp⟩
          · exact Or.inr ⟨si + 1, i, s', rfl, by simpa using hs, hp⟩
        · rw [List.flatMap_cons, List.find?_append, List.find?_append, hnh,
            hnf, hfind]
          rfl

/-- C10: `find_paragraph_with_placeholder` searches body paragraphs, then
body-table cell paragraphs, then per section its header paragraphs and
then its footer paragraphs, returning the first paragraph in that order
whose text contains the marker; header/footer table cells are never
searched, so the result is `none` whenever the marker occurs only there
(which triggers the fallback append). -/
theorem c10_find_search_order (d : Doc) (m : Txt) :
    (find_paragraph_with_placeholder d m = none ↔
      ∀ p ∈ findDomainParas d, pyIn m (paraText p) = false) ∧
    ∀ loc, find_paragraph_with_placeholder d m = some loc →
      (findDomainParas d).find? (fun q => pyIn m (paraText q))
        = some (paraAtLoc d loc) := by
  constructor
  · constructor
    · intro h
      rw [find_paragraph_with_placeholder] at h
      cases hb : findParaIdx m d.body with
      | some i =>
        rw [hb] at h
        simp at h
      | none =>
        rw [hb] at h
        cases ht : findInTables m d.body with
        | some x =>
          obtain ⟨bi, ri, ci, j⟩ := x
          rw [ht] at h
          simp at h
        | none =>
          rw [ht] at h
          intro p hp
          rw [findDomainParas] at hp
          rcases List.mem_append.mp hp with h1 | h1
          · rcases List.mem_append.mp h1 with h2 | h2
            · exact (findParaIdx_none m d.body).mp hb p h2
            · exact (findInTables_none m d.body).mp ht p h2
          · exact (findInSections_none m d.sections).mp h p h1
    · intro h
      have h1 : findParaIdx m d.body = none :=
        (findParaIdx_none m d.body).mpr fun p hp =>
          h p (by
            rw [findDomainParas]
            exact List.mem_append.mpr
              (Or.inl (List.mem_append.mpr (Or.inl hp))))
      have h2 : findInTables m d.body = none :=
        (findInTables_none m d.body).mpr fun p hp =>
          h p (by
            rw [findDomainParas]
            exact List.mem_append.mpr
              (Or.inl (List.mem_append.mpr (Or.inr hp))))
      have h3 : findInSections m d.sections = none :=
        (findInSections_none m d.sections).mpr fun p hp =>
          h p (by
            rw [findDomainParas]
            exact List.mem_append.mpr (Or.inr hp))
      rw [find_paragraph_with_placeholder, h1, h2, h3]
  · intro loc hf
    rw [find_paragraph_with_placeholder] at hf
    cases hb : findParaIdx m d.body with
    | some i =>
      rw [hb] at hf
      injection hf with h'
      subst h'
      rcases findParaIdx_find? m d.body i hb with ⟨p, hp, hfind⟩
      have hpara : paraAtLoc d (.body i) = p := by
        simp only [paraAtLoc, locContainer, locIdx, hp]
      rw [findDomainParas, List.find?_append, List.find?_append, hfind,
        hpara]
      rfl
    | none =>
      rw [hb] at hf
      have hnA : (blockParas d.body).find?
          (fun q => pyIn m (paraText q)) = none :=
        List.find?_eq_none.mpr fun x hx => by
          simp [(findParaIdx_none m d.body).mp hb x hx]
      cases ht : findInTables m d.body with
      | some x =>
        obtain ⟨bi, ri, ci, j⟩ := x
        rw [ht] at hf
        injection hf with h'
        subst h'
        rcases findInTables_find? m d.body bi ri ci j ht with
          ⟨rows, row, cell, p, h1, h2, h3, h4, hfind⟩
        have hpara : paraAtLoc d (.cell bi ri ci j) = p := by
          simp only [paraAtLoc, locContainer, locIdx, h1, Option.some_bind,
            h2, h3, Option.getD_some, h4]
        rw [findDomainParas, List.find?_append, List.find?_append, hnA,
          hfind, hpara]
        rfl
      | none =>
        rw [ht] at hf
        rcases findInSections_find? m d.sections loc hf with
          ⟨p, hcase, hfind⟩
        have hnB : (tablesCellParas d.body).find?
            (fun q => pyIn m (paraText q)) = none :=
          List.find?_eq_none.mpr fun x hx => by
            simp [(findInTables_none m d.body).mp ht x hx]
        have hpara : paraAtLoc d loc = p := by
          rcases hcase with ⟨si, i, s, rfl, hs, hp⟩ |
            ⟨si, i, s, rfl, hs, hp⟩
          · simp only [paraAtLoc, locContainer, locIdx, hs,
              Option.map_some', Option.getD_some, hp]
          · simp only [paraAtLoc, locContainer, locIdx, hs,
              Option.map_some', Option.getD_some, hp]
        rw [findDomainParas, List.find?_append, List.find?_append, hnA,
          hnB, hfind, hpara]
        rfl

/-- C10 witness: a document whose only marker occurrence sits inside a
header-table cell — the substitution scan sees that paragraph, but the
search returns `none`. -/
theorem c10_witness :
    (∃ p ∈ scanParas ⟨[], [⟨[.bt [[[.bp ⟨[txt "T"]⟩]]]], []⟩]⟩,
      pyIn (txt "T") (paraText p) = true) ∧
    find_paragraph_with_placeholder ⟨[], [⟨[.bt [[[.bp ⟨[txt "T"]⟩]]]], []⟩]⟩
      (txt "T") = none :=
  ⟨by decide,
    ((c10_find_search_order ⟨[], [⟨[.bt [[[.bp ⟨[txt "T"]⟩]]]], []⟩]⟩
      (txt "T")).1).mpr (by decide)⟩
